import Mathlib

/-!
# Verification development for `git_scraping_webshare_status` (`src/main.go`)

The program fetches an Atom feed, merges the entries it has not seen into a
JSON-backed incident store, and commits the store with git when something new
was found.  This file embeds the data model and the operations of `main.go`
and proves the properties of the reconciliation loop, of the store file
round trip and of the publishing step.

Modelling conventions

* A Go `string` is a finite byte sequence (`GoString`); nothing forces it to be
  valid UTF-8.
* A Go `map[string]Incident` is either the nil map or an initialised map
  (`GoMap`).  Reading a nil map behaves like reading an empty map; assigning to
  a nil map is a run-time panic.
* The operating system, the network, the clock and the external `git` process
  are an explicit environment (`Env`); the effects of a run are recorded in a
  `World` (the data file and an ordered trace of events).
* `encoding/json` is modelled at the level of JSON documents (`JSON`): the
  data file holds a document, the encoder produces one and the decoder
  consumes one.  The model covers what the library does with the values of
  this program (key order, the coercion of strings to valid UTF-8, the field
  names of `Incident` and their case-insensitive matching, `null`, type
  errors); the text of a document (escapes, white space, indentation) is the
  library's own business and is not represented.
-/

namespace WebshareStatus

/-! ## Strings -/

/-- Byte of a Go string. -/
abbrev Byte := Fin 256

/-- Go `string`: an immutable sequence of bytes. -/
abbrev GoString := List Byte

/-- Go string literal whose characters are all ASCII. -/
def ascii (s : String) : GoString := s.toList.map (fun c => Fin.ofNat c.toNat)

/-! ## Data model (`main.go` lines 15-40) -/

/-- The anonymous struct type of `Entry.Link`. -/
structure EntryLink where
  Href : GoString
  deriving DecidableEq, Repr

/-- Go `type Entry struct`. -/
structure Entry where
  ID : GoString
  Updated : GoString
  Title : GoString
  Summary : GoString
  Link : EntryLink
  deriving DecidableEq, Repr

/-- Go `type Feed struct`. -/
structure Feed where
  Entries : List Entry
  deriving DecidableEq, Repr

/-- Go `type Incident struct`. -/
structure Incident where
  ID : GoString
  Updated : GoString
  Title : GoString
  Summary : GoString
  Link : GoString
  deriving DecidableEq, Repr

/-- Go constant `feedURL`. -/
def feedURL : GoString := ascii "https://status.webshare.io/feed.atom"

/-- Go constant `dataFile`. -/
def dataFile : GoString := ascii "data.json"

/-! ## Go maps -/

/-- Bindings of an initialised map, as an association list.  The binding of a
key is the first pair that carries it. -/
abbrev Bindings := List (GoString × Incident)

namespace Bindings

/-- Value bound to `k`, if any. -/
def find (k : GoString) : Bindings → Option Incident
  | [] => none
  | (k', v) :: rest => if k' = k then some v else find k rest

/-- Result of `m[k] = v` on the bindings: the binding of `k` is replaced where
it stands, or added when `k` has none. -/
def put (k : GoString) (v : Incident) : Bindings → Bindings
  | [] => [(k, v)]
  | (k', v') :: rest => if k' = k then (k, v) :: rest else (k', v') :: put k v rest

/-- The bindings with one pair per key (the pair that `find` returns). -/
def entries : Bindings → Bindings
  | [] => []
  | (k, v) :: rest => (k, v) :: (entries rest).filter (fun p => decide (p.1 ≠ k))

/-- The keys, each once. -/
def keys (b : Bindings) : List GoString := (entries b).map Prod.fst

end Bindings

/-- Go `map[string]Incident`. -/
inductive GoMap where
  | nil
  | made (b : Bindings)
  deriving DecidableEq, Repr

namespace GoMap

/-- Go `v, ok := m[k]`; `none` stands for `ok == false`.  A nil map can be
read. -/
def get? : GoMap → GoString → Option Incident
  | nil, _ => none
  | made b, k => b.find k

/-- Go `m[k] = v`; `none` is the run-time panic
"assignment to entry in nil map". -/
def set : GoMap → GoString → Incident → Option GoMap
  | nil, _, _ => none
  | made b, k, v => some (made (b.put k v))

/-- The keys of the map, each once. -/
def keys : GoMap → List GoString
  | nil => []
  | made b => b.keys

/-- Go `m == nil`. -/
def isNil : GoMap → Bool
  | nil => true
  | made _ => false

end GoMap

/-! ## The reconciliation loop (`main`, lines 56-69) -/

/-- The composite literal `Incident{...}` of lines 59-65. -/
def toIncident (entry : Entry) : Incident :=
  { ID := entry.ID
    Updated := entry.Updated
    Title := entry.Title
    Summary := entry.Summary
    Link := entry.Link.Href }

/-- State of the loop: `existingIncidents` and `newIncidents`. -/
abbrev LoopState := GoMap × List Incident

/-- One iteration of the `for _, entry := range feed.Entries` loop (lines
58-68).  `none` is a run-time panic. -/
def loopBody (st : LoopState) (entry : Entry) : Option LoopState :=
  match st.1.get? entry.ID with
  | some _ => some st
  | none =>
    let incident := toIncident entry
    match st.1.set entry.ID incident with
    | none => none
    | some m => some (m, st.2 ++ [incident])

/-- The loop of lines 57-69 run from a given state. -/
def loopFrom : List Entry → LoopState → Option LoopState
  | [], st => some st
  | entry :: rest, st =>
    match loopBody st entry with
    | none => none
    | some st' => loopFrom rest st'

/-- The Reconciler: lines 56-69 of `main`.  `newIncidents` starts as the empty
slice; the result is the final `existingIncidents` and `newIncidents`, or
`none` when the loop panics. -/
def reconcile (entries : List Entry) (existingIncidents : GoMap) : Option LoopState :=
  loopFrom entries (existingIncidents, [])

/-! ## UTF-8 (Go package `unicode/utf8`) -/

/-- For a leading byte of a multi-byte sequence: the length of the sequence
and the range accepted for the second byte (the tables `first` and
`acceptRanges` of `unicode/utf8`).  `none` for a byte that cannot start a
multi-byte sequence. -/
def leadInfo (b0 : Byte) : Option (Nat × Nat × Nat) :=
  if 0xC2 ≤ b0.val ∧ b0.val ≤ 0xDF then some (2, 0x80, 0xBF)
  else if b0.val = 0xE0 then some (3, 0xA0, 0xBF)
  else if b0.val = 0xED then some (3, 0x80, 0x9F)
  else if 0xE1 ≤ b0.val ∧ b0.val ≤ 0xEF then some (3, 0x80, 0xBF)
  else if b0.val = 0xF0 then some (4, 0x90, 0xBF)
  else if b0.val = 0xF4 then some (4, 0x80, 0x8F)
  else if 0xF1 ≤ b0.val ∧ b0.val ≤ 0xF3 then some (4, 0x80, 0xBF)
  else none

/-- Continuation byte: `0x80 ≤ b ≤ 0xBF`. -/
def isCont (b : Byte) : Bool := decide (0x80 ≤ b.val ∧ b.val ≤ 0xBF)

/-- The size that `utf8.DecodeRune` reports for the bytes at the front of `p`
when they are a well-formed encoding, and `none` when it reports
`(RuneError, 1)` for a malformed one (or `p` is empty). -/
def decodeSize : GoString → Option Nat
  | [] => none
  | b0 :: rest =>
    if b0.val < 0x80 then some 1
    else
      match leadInfo b0 with
      | none => none
      | some (sz, lo, hi) =>
        match rest with
        | [] => none
        | b1 :: rest1 =>
          if b1.val < lo ∨ hi < b1.val then none
          else if sz ≤ 2 then some 2
          else
            match rest1 with
            | [] => none
            | b2 :: rest2 =>
              if !isCont b2 then none
              else if sz ≤ 3 then some 3
              else
                match rest2 with
                | [] => none
                | b3 :: _ => if !isCont b3 then none else some 4

/-- UTF-8 encoding of U+FFFD, the replacement character. -/
def replacementChar : GoString := [0xEF, 0xBF, 0xBD]

/-- Worker of `coerceUTF8`: `pending` counts the bytes still to copy of a
sequence that was accepted at its leading byte. -/
def coerceAux : Nat → GoString → GoString
  | _, [] => []
  | pending + 1, b :: rest => b :: coerceAux pending rest
  | 0, b :: rest =>
    match decodeSize (b :: rest) with
    | none => replacementChar ++ coerceAux 0 rest
    | some sz => b :: coerceAux (sz - 1) rest

/-- The string with every byte that is not part of a well-formed UTF-8
sequence replaced by U+FFFD, one replacement per byte.  This is what a string
becomes when `encoding/json` writes it (`appendString`) and when it reads a
string literal (`unquote`). -/
def coerceUTF8 (s : GoString) : GoString := coerceAux 0 s

/-- Worker of `utf8Valid`, with the same `pending` counter as `coerceAux`. -/
def validAux : Nat → GoString → Bool
  | _, [] => true
  | pending + 1, _ :: rest => validAux pending rest
  | 0, b :: rest =>
    match decodeSize (b :: rest) with
    | none => false
    | some sz => validAux (sz - 1) rest

/-- Go `utf8.ValidString`. -/
def utf8Valid (s : GoString) : Bool := validAux 0 s

/-- The byte with value `n % 256`. -/
def byte (n : Nat) : Byte := ⟨n % 256, Nat.mod_lt _ (by decide)⟩

/-- Is `r` a Unicode scalar value: a code point that is not a surrogate? -/
def isScalar (r : Nat) : Bool := decide (r < 0xD800 ∨ (0xE000 ≤ r ∧ r < 0x110000))

/-- The UTF-8 encoding of the scalar value `r` (Go `utf8.AppendRune`). -/
def encodeRune (r : Nat) : GoString :=
  if r < 0x80 then [byte r]
  else if r < 0x800 then [byte (0xC0 + r / 0x40), byte (0x80 + r % 0x40)]
  else if r < 0x10000 then
    [byte (0xE0 + r / 0x1000), byte (0x80 + r / 0x40 % 0x40), byte (0x80 + r % 0x40)]
  else
    [byte (0xF0 + r / 0x40000), byte (0x80 + r / 0x1000 % 0x40), byte (0x80 + r / 0x40 % 0x40),
      byte (0x80 + r % 0x40)]

/-- The UTF-8 encoding of a sequence of scalar values. -/
def encodeRunes : List Nat → GoString
  | [] => []
  | r :: rest => encodeRune r ++ encodeRunes rest

/-! ## JSON documents (Go package `encoding/json`) -/

/-- A JSON document.  A string carries the bytes its literal denotes once the
escapes are resolved; a number carries its literal. -/
inductive JSON where
  | null
  | bool (b : Bool)
  | number (literal : GoString)
  | string (s : GoString)
  | array (items : List JSON)
  | object (members : List (GoString × JSON))

/-- The `Value` field of a `json.UnmarshalTypeError`. -/
def JSON.kind : JSON → GoString
  | .null => ascii "null"
  | .bool _ => ascii "bool"
  | .number _ => ascii "number"
  | .string _ => ascii "string"
  | .array _ => ascii "array"
  | .object _ => ascii "object"

/-! ## Errors, events and the process model -/

/-- A Go `error` value. -/
inductive GoError where
  /-- An error reported by the operating system, the network, a child
  process, the XML decoder or the JSON scanner. -/
  | external (text : GoString)
  /-- A `*json.UnmarshalTypeError`: the kind of JSON value and the Go type it
  cannot be stored in. -/
  | unmarshalType (value : GoString) (goType : GoString)
  deriving DecidableEq, Repr

/-- An argument of a `fmt.Printf` call. -/
inductive PrintArg where
  | str (s : GoString)
  | err (e : GoError)
  deriving DecidableEq, Repr

/-- An observable action of the process. -/
inductive Event where
  /-- Call of `http.Get(url)`. -/
  | httpGet (url : GoString)
  /-- Call of `fmt.Printf(format, args...)`. -/
  | printf (format : GoString) (args : List PrintArg)
  /-- Call of `fmt.Println(text)`. -/
  | println (text : GoString)
  /-- Call of `os.Create(path)`. -/
  | create (path : GoString)
  /-- A JSON document written to the file at `path` by an encoder set up with
  `SetIndent("", indent)`. -/
  | write (path : GoString) (indent : GoString) (doc : JSON)
  /-- An external command run with `exec.Command(argv...).Run()`. -/
  | exec (argv : List GoString)

/-- What the data file holds, as `json.Decoder.Decode` sees it: the first JSON
value of the file (the decoder reads one value and leaves what follows), or
bytes from which it reads no value and reports `err` (an empty or malformed
file). -/
inductive FileContent where
  | json (doc : JSON)
  | malformed (err : GoError)

/-- The mutable world of a run: the data file (`none` when it does not exist)
and the events so far, oldest first. -/
structure World where
  file : Option FileContent
  trace : List Event

/-- A value of Go type `time.Time`. -/
structure Time where
  unixNano : Int
  deriving DecidableEq, Repr

/-- Go constant `time.RFC3339`. -/
def RFC3339 : GoString := ascii "2006-01-02T15:04:05Z07:00"

/-- The behaviour of everything outside the program during one run. -/
structure Env where
  /-- Error of `http.Get(url)`, `none` when a response arrives. -/
  httpGet : GoString → Option GoError
  /-- Outcome of `io.ReadAll(resp.Body)`. -/
  readAll : Except GoError GoString
  /-- Outcome of `xml.Unmarshal(body, &feed)`. -/
  xmlUnmarshal : GoString → Except GoError Feed
  /-- Error of closing the response body. -/
  closeBody : Option GoError
  /-- Error of `os.Open` on the data file when the file exists. -/
  openError : Option GoError
  /-- Error of closing the data file after reading. -/
  closeRead : Option GoError
  /-- Error of `os.Create` on the data file. -/
  createError : Option GoError
  /-- Error of writing the encoded store. -/
  writeError : Option GoError
  /-- Error of closing the data file after writing. -/
  closeWritten : Option GoError
  /-- Error of running the command `argv`, `none` when it exits with status 0. -/
  runError : List GoString → Option GoError
  /-- Result of `time.Now()`. -/
  now : Time
  /-- Go `t.Format(layout)`. -/
  timeFormat : Time → GoString → GoString

/-- How a computation of the process ends. -/
inductive Result (α : Type) where
  /-- It returns `a`. -/
  | ok (a : α) (w : World)
  /-- Call of `os.Exit(code)`: the process ends at once, deferred calls do not
  run. -/
  | exit (code : Nat) (w : World)
  /-- A run-time panic: deferred calls run while the stack unwinds. -/
  | panic (w : World)

/-- A computation of the process. -/
abbrev Proc (α : Type) := World → Result α

/-- Sequencing: the second computation runs only if the first returns. -/
def Proc.bind {α β : Type} (p : Proc α) (f : α → Proc β) : Proc β := fun w =>
  match p w with
  | .ok a w' => f a w'
  | .exit code w' => .exit code w'
  | .panic w' => .panic w'

instance : Monad Proc where
  pure a := fun w => .ok a w
  bind := Proc.bind

/-- Record an event. -/
def emit (e : Event) : Proc Unit := fun w => .ok () { w with trace := w.trace ++ [e] }

/-- Run `p` with the call `deferred` registered by `defer`: it runs when `p`
returns or panics, not when the process exits. -/
def withDefer {α : Type} (deferred : Proc Unit) (p : Proc α) : Proc α := fun w =>
  match p w with
  | .ok a w' =>
    match deferred w' with
    | .ok _ w'' => .ok a w''
    | .exit code w'' => .exit code w''
    | .panic w'' => .panic w''
  | .exit code w' => .exit code w'
  | .panic w' =>
    match deferred w' with
    | .ok _ w'' => .panic w''
    | .exit code w'' => .exit code w''
    | .panic w'' => .panic w''

/-- The world in which a computation ends. -/
def Result.world {α : Type} : Result α → World
  | .ok _ w => w
  | .exit _ w => w
  | .panic w => w

/-- The exit status of the process when `main` ends this way: 0 on return, the
argument of `os.Exit`, 2 for a panic. -/
def Result.exitCode {α : Type} : Result α → Nat
  | .ok _ _ => 0
  | .exit code _ => code
  | .panic _ => 2

/-- The branch `err != nil` of `handleError`: print the error with its
context and call `os.Exit(1)`. -/
def fatal {α : Type} (e : GoError) (context : GoString) : Proc α := fun w =>
  .exit 1 { w with trace := w.trace ++
    [.printf (ascii "Error %s: %v\n") [.str context, .err e]] }

/-- Go `handleError` (lines 124-129). -/
def handleError (err : Option GoError) (context : GoString) : Proc Unit :=
  match err with
  | none => pure ()
  | some e => fatal e context

/-- Go `safeClose` (lines 132-136): close, and print when closing fails. -/
def safeClose (closeErr : Option GoError) : Proc Unit :=
  match closeErr with
  | none => pure ()
  | some e => emit (.printf (ascii "Error closing resource: %v\n") [.err e])

/-! ## The JSON form of the store (struct tags of `Incident`, lines 29-35) -/

/-- The fields of `Incident`, in declaration order. -/
inductive Field where
  | id | updated | title | summary | link
  deriving DecidableEq, Repr

/-- The JSON name of a field (its `json:"..."` tag). -/
def Field.name : Field → GoString
  | .id => ascii "id"
  | .updated => ascii "updated"
  | .title => ascii "title"
  | .summary => ascii "summary"
  | .link => ascii "link"

/-- All fields, in declaration order. -/
def Field.all : List Field := [.id, .updated, .title, .summary, .link]

/-- Read a field. -/
def Field.value : Field → Incident → GoString
  | .id, i => i.ID
  | .updated, i => i.Updated
  | .title, i => i.Title
  | .summary, i => i.Summary
  | .link, i => i.Link

/-- Assign a field. -/
def Field.assign : Field → Incident → GoString → Incident
  | .id, i, s => { i with ID := s }
  | .updated, i, s => { i with Updated := s }
  | .title, i, s => { i with Title := s }
  | .summary, i, s => { i with Summary := s }
  | .link, i, s => { i with Link := s }

/-- The zero value of `Incident`. -/
def zeroIncident : Incident := ⟨[], [], [], [], []⟩

/-- Upper-case an ASCII letter. -/
def upperASCII (c : Byte) : Byte :=
  if 0x61 ≤ c.val ∧ c.val ≤ 0x7A then c - 0x20 else c

/-- Worker of `foldName`: `skip` counts the remaining bytes of a multi-byte
rune that has been folded at its leading byte. -/
def foldAux : Nat → GoString → GoString
  | _, [] => []
  | skip + 1, _ :: rest => foldAux skip rest
  | 0, c :: rest =>
    if c = 0xC5 ∧ rest.take 1 = [0xBF] then 0x53 :: foldAux 1 rest
    else if c = 0xE2 ∧ rest.take 2 = [0x84, 0xAA] then 0x4B :: foldAux 2 rest
    else upperASCII c :: foldAux 0 rest

/-- Go `encoding/json.foldName` as far as it matters for ASCII field names:
ASCII letters are upper-cased, and U+017F (long s) and U+212A (Kelvin sign),
the two non-ASCII runes whose case fold is an ASCII letter, become `S` and
`K`.  Other bytes are kept (their fold is never an ASCII letter). -/
def foldName (key : GoString) : GoString := foldAux 0 key

/-- The field an object key is stored in: the field with exactly that name,
otherwise the first field whose name matches case-insensitively, otherwise
none (the member is skipped). -/
def fieldOf (key : GoString) : Option Field :=
  match Field.all.find? (fun f => decide (f.name = key)) with
  | some f => some f
  | none => Field.all.find? (fun f => decide (foldName f.name = foldName key))

/-- Encoding of one `Incident`: an object with the five fields in declaration
order. -/
def encodeIncident (i : Incident) : JSON :=
  .object (Field.all.map (fun f => (f.name, .string (coerceUTF8 (f.value i)))))

/-- The document `json.Encoder.Encode` writes for a `map[string]Incident`:
`null` for the nil map, otherwise an object with one member per key, the keys
in sorted (bytewise) order. -/
def marshalStore : GoMap → JSON
  | .nil => .null
  | .made b =>
    .object (((b.entries).insertionSort (fun p q => p.1 ≤ q.1)).map
      (fun p => (coerceUTF8 p.1, encodeIncident p.2)))

/-- Decoding the members of an object into an `Incident`. -/
def decodeFields : List (GoString × JSON) → Incident → Except GoError Incident
  | [], inc => .ok inc
  | (key, value) :: rest, inc =>
    match fieldOf (coerceUTF8 key) with
    | none => decodeFields rest inc
    | some f =>
      match value with
      | .string s => decodeFields rest (f.assign inc (coerceUTF8 s))
      | .null => decodeFields rest inc
      | other => .error (.unmarshalType other.kind (ascii "string"))

/-- Decoding a JSON value into a fresh `Incident`. -/
def decodeIncident : JSON → Except GoError Incident
  | .null => .ok zeroIncident
  | .object members => decodeFields members zeroIncident
  | other => .error (.unmarshalType other.kind (ascii "main.Incident"))

/-- Decoding the members of the top-level object into the map: each member is
decoded into a fresh `Incident` and assigned under its key, so the last member
with a given key wins. -/
def decodeMembers : List (GoString × JSON) → Bindings → Except GoError Bindings
  | [], b => .ok b
  | (key, value) :: rest, b =>
    match decodeIncident value with
    | .error e => .error e
    | .ok inc => decodeMembers rest (b.put (coerceUTF8 key) inc)

/-- What `json.Decoder.Decode(&incidents)` stores in
`var incidents map[string]Incident` (a nil map before the call): JSON `null`
leaves the map nil, an object allocates a map and fills it, anything else is an
`UnmarshalTypeError`. -/
def unmarshalStore : JSON → Except GoError GoMap
  | .null => .ok .nil
  | .object members =>
    match decodeMembers members [] with
    | .error e => .error e
    | .ok b => .ok (.made b)
  | other => .error (.unmarshalType other.kind (ascii "map[string]main.Incident"))

/-! ## The functions of `main.go` -/

/-- Go `json.NewDecoder(file).Decode(&incidents)` on a file with the given
content: the map stored in `incidents`, or the error. -/
def jsonDecode : FileContent → Except GoError GoMap
  | .malformed e => .error e
  | .json doc => unmarshalStore doc

/-- Go `loadIncidents` (lines 79-91).  When the file does not exist `os.Open`
fails with `os.ErrNotExist` and a fresh map is returned. -/
def loadIncidents (env : Env) : Proc GoMap := fun w =>
  match w.file with
  | none => .ok (.made []) w
  | some content =>
    (do
      handleError env.openError (ascii "opening data file")
      withDefer (safeClose env.closeRead)
        (match jsonDecode content with
        | .error e => fatal e (ascii "parsing JSON data")
        | .ok incidents => pure incidents)) w

/-- What `os.Create` leaves on success: the file exists and is empty, so the
JSON decoder would report `io.EOF` on it. -/
def truncated : FileContent := .malformed (.external (ascii "EOF"))

/-- Go `saveIncidents` (lines 93-102).  The encoder is set up with
`SetIndent("", "  ")`; the indentation changes the text of the file, not the
document it holds.  A failed write leaves the file truncated or partly
written. -/
def saveIncidents (env : Env) (incidents : GoMap) : Proc Unit := do
  emit (.create dataFile)
  handleError env.createError (ascii "creating data file")
  (fun w => .ok () { w with file := some truncated })
  withDefer (safeClose env.closeWritten)
    (match env.writeError with
    | some e => fatal e (ascii "saving JSON data")
    | none => fun w =>
      .ok () { file := some (.json (marshalStore incidents))
               trace := w.trace ++ [.write dataFile (ascii "  ") (marshalStore incidents)] })

/-- Go `strings.Join(parts, " ")`. -/
def joinSpace : List GoString → GoString
  | [] => []
  | [a] => a
  | a :: rest => a ++ ascii " " ++ joinSpace rest

/-- Go `fmt.Sprintf("%d", n)` for a non-negative `n`. -/
def decimal (n : Nat) : GoString := ascii (toString n)

/-- Go `runCommand` (lines 115-121).  The context string is
`fmt.Sprintf("running command '%s %v'", command, args)`, where `%v` prints a
slice of strings between brackets, separated by blanks. -/
def runCommand (env : Env) (command : GoString) (args : List GoString) : Proc Unit := do
  emit (.exec (command :: args))
  handleError (env.runError (command :: args))
    (ascii "running command '" ++ command ++ ascii " [" ++ joinSpace args ++ ascii "]'")

/-- The commit message of line 110:
`fmt.Sprintf("Update incidents: %d new (%s)", len(newIncidents), time.Now().Format(time.RFC3339))`. -/
def commitMessage (env : Env) (newIncidents : List Incident) : GoString :=
  ascii "Update incidents: " ++ decimal newIncidents.length ++ ascii " new (" ++
    env.timeFormat env.now RFC3339 ++ ascii ")"

/-- Go `commitToGit` (lines 104-113). -/
def commitToGit (env : Env) (newIncidents : List Incident) : Proc Unit := do
  runCommand env (ascii "git") [ascii "config", ascii "--global", ascii "user.email",
    ascii "github-actions[bot]@users.noreply.github.com"]
  runCommand env (ascii "git") [ascii "config", ascii "--global", ascii "user.name",
    ascii "GitHub Actions"]
  runCommand env (ascii "git") [ascii "add", dataFile]
  let message := commitMessage env newIncidents
  runCommand env (ascii "git") [ascii "commit", ascii "-m", message]
  runCommand env (ascii "git") [ascii "push"]

/-- Lines 71-76 of `main`: save and commit when something is new, otherwise
report that nothing is. -/
def publish (env : Env) (existingIncidents : GoMap) (newIncidents : List Incident) :
    Proc Unit :=
  if newIncidents.length > 0 then do
    saveIncidents env existingIncidents
    commitToGit env newIncidents
  else
    emit (.println (ascii "No new incidents to commit."))

/-- Lines 47-76 of `main`, the part that runs with `defer safeClose(resp.Body)`
registered. -/
def mainBody (env : Env) : Proc Unit :=
  match env.readAll with
  | .error e => fatal e (ascii "reading response body")
  | .ok body =>
    match env.xmlUnmarshal body with
    | .error e => fatal e (ascii "parsing the feed")
    | .ok feed => do
      let existingIncidents ← loadIncidents env
      match reconcile feed.Entries existingIncidents with
      | none => fun w => .panic w
      | some (existingIncidents, newIncidents) =>
        publish env existingIncidents newIncidents

/-- Go `main` (lines 42-77). -/
def main (env : Env) : Proc Unit := do
  emit (.httpGet feedURL)
  handleError (env.httpGet feedURL) (ascii "fetching the feed")
  withDefer (safeClose env.closeBody) (mainBody env)

/-! ## Specification-side definitions -/

/-- The loop of lines 57-69 on an initialised map, as a pure function of the
bindings: the final bindings and the incidents appended to `newIncidents`.
`loopFrom_made` shows that the loop computes it. -/
def mergeNew : List Entry → Bindings → Bindings × List Incident
  | [], b => (b, [])
  | entry :: rest, b =>
    match b.find entry.ID with
    | some _ => mergeNew rest b
    | none =>
      ((mergeNew rest (b.put entry.ID (toIncident entry))).1,
        toIncident entry :: (mergeNew rest (b.put entry.ID (toIncident entry))).2)

/-- The entries of the feed whose id is not a key of the store. -/
def unseenEntries (S : GoMap) (E : List Entry) : List Entry :=
  E.filter (fun e => decide (e.ID ∉ S.keys))

/-- Each entry of the feed paired with the entries that come before it. -/
def withEarlier : List Entry → List (List Entry × Entry)
  | [] => []
  | e :: rest => ([], e) :: (withEarlier rest).map (fun p => (e :: p.1, p.2))

/-- The entries of the feed whose id is not a key of the store and is not the
id of an earlier entry of the feed, in feed order. -/
def firstUnseenEntries (S : GoMap) (E : List Entry) : List Entry :=
  ((withEarlier E).filter
    (fun p => decide (p.2.ID ∉ S.keys) && decide (p.2.ID ∉ p.1.map Entry.ID))).map Prod.snd

/-- The store invariant: every key equals the `ID` field of its value. -/
def StoreInvariant (S : GoMap) : Prop :=
  ∀ k v, S.get? k = some v → v.ID = k

/-- The value a computation returns, if it returns. -/
def Result.value? {α : Type} : Result α → Option α
  | .ok a _ => some a
  | .exit _ _ => none
  | .panic _ => none

/-! ## Observations on runs -/

/-- Is the event a write to the file system (`os.Create` or a write)? -/
def Event.isFileWrite : Event → Bool
  | .create _ => true
  | .write _ _ _ => true
  | _ => false

/-- Is the event the run of an external command? -/
def Event.isExec : Event → Bool
  | .exec _ => true
  | _ => false

/-- An event that is neither a write to a file nor an external command. -/
def Event.Quiet (ev : Event) : Prop := ev.isFileWrite = false ∧ ev.isExec = false

/-- A computation that leaves the data file alone and only adds events that
satisfy `P`. -/
def Adds {α : Type} (P : Event → Prop) (p : Proc α) : Prop :=
  ∀ w, (p w).world.file = w.file ∧ ∃ t, (p w).world.trace = w.trace ++ t ∧ ∀ ev ∈ t, P ev

/-- The first command of `commitToGit` (line 105). -/
def gitConfigEmail : List GoString :=
  [ascii "git", ascii "config", ascii "--global", ascii "user.email",
    ascii "github-actions[bot]@users.noreply.github.com"]

/-- The events of a `safeClose` call. -/
def closeEvents : Option GoError → List Event
  | none => []
  | some e => [.printf (ascii "Error closing resource: %v\n") [.err e]]

/-- Equality of two Go maps as values (`reflect.DeepEqual`): both nil or both
initialised, and the same binding for every key. -/
def GoMap.DeepEqual (a b : GoMap) : Prop :=
  a.isNil = b.isNil ∧ ∀ k, a.get? k = b.get? k

/-- Every key of the store and every string field of every incident in it is
valid UTF-8. -/
def GoMap.ValidUTF8 (S : GoMap) : Prop :=
  ∀ k v, S.get? k = some v → utf8Valid k = true ∧ ∀ f : Field, utf8Valid (f.value v) = true

/-! ## Concrete data used in the examples -/

/-- A feed entry with id `a`. -/
def entryA : Entry :=
  ⟨ascii "a", ascii "2024-05-01T10:00:00Z", ascii "Outage", ascii "Proxies down", ⟨ascii "https://status.webshare.io/a"⟩⟩

/-- An entry with the same id `a` and a later `updated` and another summary. -/
def entryA2 : Entry :=
  ⟨ascii "a", ascii "2024-05-01T12:00:00Z", ascii "Outage", ascii "Resolved", ⟨ascii "https://status.webshare.io/a"⟩⟩

/-- A feed entry with id `b`. -/
def entryB : Entry :=
  ⟨ascii "b", ascii "2024-05-02T08:00:00Z", ascii "Maintenance", ascii "Planned", ⟨ascii "https://status.webshare.io/b"⟩⟩

/-- The store `{a: ...}` holding the incident of `entryA`. -/
def storeA : GoMap := .made [(ascii "a", toIncident entryA)]

/-- The store `{a: ..., b: ...}`. -/
def storeAB : GoMap := .made [(ascii "a", toIncident entryA), (ascii "b", toIncident entryB)]

/-- A store whose incident has a title in Latin-1: `Caf\xe9`, where the byte
`0xE9` is not valid UTF-8. -/
def latin1Store : GoMap :=
  .made [(ascii "a", ⟨ascii "a", ascii "2024-05-01T10:00:00Z", ascii "Caf" ++ [0xE9],
    ascii "Proxies down", ascii "https://status.webshare.io/a"⟩)]

/-- What `latin1Store` is after a save and a load: the byte `0xE9` has become
U+FFFD. -/
def latin1StoreReloaded : GoMap :=
  .made [(ascii "a", ⟨ascii "a", ascii "2024-05-01T10:00:00Z", ascii "Caf" ++ [0xEF, 0xBF, 0xBD],
    ascii "Proxies down", ascii "https://status.webshare.io/a"⟩)]

/-- An environment in which nothing fails: the feed parses to `feed`, every
command succeeds, and the clock formats to `2024-05-01T10:00:00Z`. -/
def quietEnv (feed : Feed) : Env where
  httpGet := fun _ => none
  readAll := .ok []
  xmlUnmarshal := fun _ => .ok feed
  closeBody := none
  openError := none
  closeRead := none
  createError := none
  writeError := none
  closeWritten := none
  runError := fun _ => none
  now := ⟨1714557600000000000⟩
  timeFormat := fun _ _ => ascii "2024-05-01T10:00:00Z"


/-! ## Lemmas on bindings -/

namespace Bindings

theorem find_put_self (k : GoString) (v : Incident) (b : Bindings) :
    find k (put k v b) = some v := by
  induction b with
  | nil => simp [put, find]
  | cons p rest ih =>
    obtain ⟨k', v'⟩ := p
    by_cases h : k' = k
    · simp [put, find, h]
    · simp [put, find, h, ih]

theorem find_put_of_ne {k k' : GoString} (v : Incident) (b : Bindings) (h : k' ≠ k) :
    find k' (put k v b) = find k' b := by
  induction b with
  | nil => simp [put, find, Ne.symm h]
  | cons p rest ih =>
    obtain ⟨k0, v0⟩ := p
    by_cases h0 : k0 = k
    · subst h0; simp [put, find, Ne.symm h]
    · simp only [put, h0, if_false, find, ih]

theorem mem_keys_iff (k : GoString) (b : Bindings) :
    k ∈ keys b ↔ (find k b).isSome = true := by
  induction b with
  | nil => simp [keys, entries, find]
  | cons p rest ih =>
    obtain ⟨k0, v0⟩ := p
    by_cases h0 : k0 = k
    · simp [keys, entries, find, h0]
    · have h1 : k ≠ k0 := Ne.symm h0
      simp only [keys] at ih
      simp only [keys, entries, find, h0, if_false, List.map_cons, List.mem_cons, h1, false_or,
        ← ih]
      simp only [List.mem_map, List.mem_filter, decide_eq_true_eq]
      constructor
      · rintro ⟨a, ⟨ha, _⟩, rfl⟩; exact ⟨a, ha, rfl⟩
      · rintro ⟨a, ha, rfl⟩; exact ⟨a, ⟨ha, h1⟩, rfl⟩

theorem not_mem_keys_iff (k : GoString) (b : Bindings) :
    k ∉ keys b ↔ find k b = none := by
  rw [mem_keys_iff]; cases find k b <;> simp

theorem keys_nodup (b : Bindings) : (keys b).Nodup := by
  induction b with
  | nil => simp [keys, entries]
  | cons p rest ih =>
    obtain ⟨k0, v0⟩ := p
    simp only [keys, entries, List.map_cons, List.nodup_cons]
    constructor
    · simp [List.mem_map, List.mem_filter]
    · exact List.Nodup.sublist ((List.filter_sublist _).map Prod.fst) ih

theorem mem_keys_put (k k0 : GoString) (v : Incident) (b : Bindings) :
    k ∈ keys (put k0 v b) ↔ k = k0 ∨ k ∈ keys b := by
  rw [mem_keys_iff, mem_keys_iff]
  by_cases h : k = k0
  · subst h; simp [find_put_self]
  · simp [find_put_of_ne v b h, h]

end Bindings

/-! ## The loop computes `mergeNew` -/

theorem loopFrom_nil_map (E : List Entry) (acc : List Incident) :
    loopFrom E (.nil, acc) = if E = [] then some (.nil, acc) else none := by
  cases E with
  | nil => simp [loopFrom]
  | cons e es => simp [loopFrom, loopBody, GoMap.get?, GoMap.set]

theorem loopFrom_made (E : List Entry) (b : Bindings) (acc : List Incident) :
    loopFrom E (.made b, acc) = some (.made (mergeNew E b).1, acc ++ (mergeNew E b).2) := by
  induction E generalizing b acc with
  | nil => simp [loopFrom, mergeNew]
  | cons e es ih =>
    cases h : b.find e.ID with
    | some v => simp [loopFrom, loopBody, GoMap.get?, mergeNew, h, ih]
    | none => simp [loopFrom, loopBody, GoMap.get?, GoMap.set, mergeNew, h, ih]

theorem reconcile_made (E : List Entry) (b : Bindings) :
    reconcile E (.made b) = some (.made (mergeNew E b).1, (mergeNew E b).2) := by
  simp [reconcile, loopFrom_made]

theorem reconcile_nil_map (E : List Entry) :
    reconcile E .nil = if E = [] then some (.nil, []) else none := by
  simp [reconcile, loopFrom_nil_map]

/-- Every completed run of the loop is either the run on a nil map with an
empty feed, or the run of `mergeNew` on an initialised map. -/
theorem reconcile_cases {E : List Entry} {S S1 : GoMap} {N : List Incident}
    (h : reconcile E S = some (S1, N)) :
    (S = .nil ∧ E = [] ∧ S1 = .nil ∧ N = []) ∨
      ∃ b, S = .made b ∧ S1 = .made (mergeNew E b).1 ∧ N = (mergeNew E b).2 := by
  cases S with
  | nil =>
    left
    rw [reconcile_nil_map] at h
    by_cases hE : E = []
    · simp [hE] at h; exact ⟨rfl, hE, h.1.symm, h.2⟩
    · simp [hE] at h
  | made b =>
    right
    rw [reconcile_made] at h
    simp only [Option.some.injEq, Prod.mk.injEq] at h
    exact ⟨b, rfl, h.1.symm, h.2.symm⟩

theorem reconcile_isSome_of_made (E : List Entry) (S : GoMap) (h : S.isNil = false) :
    ∃ r, reconcile E S = some r := by
  cases S with
  | nil => simp [GoMap.isNil] at h
  | made b => exact ⟨_, reconcile_made E b⟩

/-! ## Properties of `mergeNew` -/

theorem mergeNew_find_preserved (E : List Entry) (b : Bindings) (k : GoString) (v : Incident)
    (h : b.find k = some v) : (mergeNew E b).1.find k = some v := by
  induction E generalizing b with
  | nil => simpa [mergeNew] using h
  | cons e es ih =>
    cases he : b.find e.ID with
    | some v0 => simp only [mergeNew, he]; exact ih b h
    | none =>
      simp only [mergeNew, he]
      apply ih
      have hne : k ≠ e.ID := by
        intro hk; subst hk; rw [he] at h; cases h
      rw [Bindings.find_put_of_ne _ _ hne]; exact h

theorem mergeNew_find_entry (E : List Entry) (b : Bindings) (e : Entry) (he : e ∈ E) :
    ∃ v, (mergeNew E b).1.find e.ID = some v := by
  induction E generalizing b with
  | nil => cases he
  | cons e0 es ih =>
    cases h0 : b.find e0.ID with
    | some v0 =>
      simp only [mergeNew, h0]
      rcases List.mem_cons.1 he with rfl | hmem
      · exact ⟨v0, mergeNew_find_preserved es b _ v0 h0⟩
      · exact ih b hmem
    | none =>
      simp only [mergeNew, h0]
      rcases List.mem_cons.1 he with rfl | hmem
      · exact ⟨_, mergeNew_find_preserved es _ _ _ (Bindings.find_put_self _ _ _)⟩
      · exact ih _ hmem

theorem mergeNew_of_all_present (E : List Entry) (b : Bindings)
    (h : ∀ e ∈ E, ∃ v, b.find e.ID = some v) : mergeNew E b = (b, []) := by
  induction E with
  | nil => rfl
  | cons e es ih =>
    obtain ⟨v, hv⟩ := h e (List.mem_cons_self _ _)
    simp only [mergeNew, hv]
    exact ih (fun e' he' => h e' (List.mem_cons_of_mem _ he'))

theorem mergeNew_idem (E : List Entry) (b : Bindings) :
    mergeNew E (mergeNew E b).1 = ((mergeNew E b).1, []) :=
  mergeNew_of_all_present E _ (fun e he => mergeNew_find_entry E b e he)

theorem mergeNew_sublist (E : List Entry) (b : Bindings) :
    List.Sublist (mergeNew E b).2 (E.map toIncident) := by
  induction E generalizing b with
  | nil => simp [mergeNew]
  | cons e es ih =>
    cases h0 : b.find e.ID with
    | some v0 => simp only [mergeNew, h0, List.map_cons]; exact List.Sublist.cons _ (ih b)
    | none => simp only [mergeNew, h0, List.map_cons]; exact List.Sublist.cons₂ _ (ih _)

theorem mergeNew_count (E : List Entry) (b : Bindings) (k : GoString) :
    (mergeNew E b).2.countP (fun i => decide (i.ID = k)) =
      if (b.find k).isSome then 0 else if k ∈ E.map Entry.ID then 1 else 0 := by
  induction E generalizing b with
  | nil => simp [mergeNew]
  | cons e es ih =>
    cases h0 : b.find e.ID with
    | some v0 =>
      simp only [mergeNew, h0, ih b, List.map_cons, List.mem_cons]
      by_cases hk : (b.find k).isSome = true
      · simp [hk]
      · have hne : k ≠ e.ID := by
          intro h; subst h; simp [h0] at hk
        simp [hk, hne]
    | none =>
      simp only [mergeNew, h0, List.map_cons, List.mem_cons, List.countP_cons, ih]
      by_cases hk : k = e.ID
      · subst hk
        simp [Bindings.find_put_self, h0, toIncident]
      · have hk' : ¬ (toIncident e).ID = k := by
          simp only [toIncident]; exact fun h => hk h.symm
        simp [Bindings.find_put_of_ne _ _ hk, hk, hk']

theorem mergeNew_invariant (E : List Entry) (b : Bindings)
    (h : ∀ k v, b.find k = some v → v.ID = k) :
    ∀ k v, (mergeNew E b).1.find k = some v → v.ID = k := by
  induction E generalizing b with
  | nil => simpa [mergeNew] using h
  | cons e es ih =>
    cases h0 : b.find e.ID with
    | some v0 => simp only [mergeNew, h0]; exact ih b h
    | none =>
      simp only [mergeNew, h0]
      apply ih
      intro k v hk
      by_cases hke : k = e.ID
      · subst hke
        rw [Bindings.find_put_self] at hk
        cases hk; rfl
      · rw [Bindings.find_put_of_ne _ _ hke] at hk; exact h k v hk

theorem firstUnseenEntries_cons (S : GoMap) (e : Entry) (es : List Entry) :
    firstUnseenEntries S (e :: es) =
      (if e.ID ∈ S.keys then [] else [e]) ++
        ((withEarlier es).filter (fun p =>
          decide (p.2.ID ∉ S.keys) && (decide (p.2.ID ≠ e.ID) &&
            decide (p.2.ID ∉ p.1.map Entry.ID)))).map Prod.snd := by
  have htail : (((withEarlier es).map (fun p => (e :: p.1, p.2))).filter
      (fun p => decide (p.2.ID ∉ S.keys) && decide (p.2.ID ∉ p.1.map Entry.ID))).map Prod.snd =
      ((withEarlier es).filter (fun p =>
          decide (p.2.ID ∉ S.keys) && (decide (p.2.ID ≠ e.ID) &&
            decide (p.2.ID ∉ p.1.map Entry.ID)))).map Prod.snd := by
    rw [List.filter_map, List.map_map]
    have hf : (Prod.snd ∘ fun p : List Entry × Entry => (e :: p.1, p.2)) = Prod.snd := rfl
    rw [hf]
    congr 1
    apply List.filter_congr
    intro p _
    simp only [Function.comp, List.map_cons, List.mem_cons, not_or, Bool.decide_and, ne_eq]
  unfold firstUnseenEntries
  simp only [withEarlier, List.filter_cons]
  by_cases h : e.ID ∈ S.keys
  · simp only [h, not_true_eq_false, decide_False, Bool.false_and, if_true, List.nil_append]
    exact htail
  · simp only [h, not_false_eq_true, decide_True, List.map_nil, List.not_mem_nil, Bool.and_self,
      if_true, if_false, List.map_cons, List.singleton_append, List.cons.injEq, true_and]
    exact htail

theorem mergeNew_eq_firstUnseen (E : List Entry) (b : Bindings) :
    (mergeNew E b).2 = (firstUnseenEntries (.made b) E).map toIncident := by
  induction E generalizing b with
  | nil => simp [mergeNew, firstUnseenEntries, withEarlier]
  | cons e es ih =>
    rw [firstUnseenEntries_cons]
    cases h0 : b.find e.ID with
    | some v0 =>
      have hmem : e.ID ∈ (GoMap.made b).keys := by
        simp [GoMap.keys, Bindings.mem_keys_iff, h0]
      simp only [mergeNew, h0, hmem, if_true, List.nil_append, ih b]
      unfold firstUnseenEntries
      congr 2
      apply List.filter_congr
      intro p _
      by_cases hp : p.2.ID ∈ (GoMap.made b).keys
      · simp [hp]
      · have : p.2.ID ≠ e.ID := fun h => hp (h ▸ hmem)
        simp [hp, this]
    | none =>
      have hmem : e.ID ∉ (GoMap.made b).keys := by
        simp [GoMap.keys, Bindings.not_mem_keys_iff, h0]
      simp only [mergeNew, h0, hmem, if_false, List.singleton_append, List.map_cons, ih]
      unfold firstUnseenEntries
      congr 3
      apply List.filter_congr
      intro p _
      simp only [GoMap.keys, Bindings.mem_keys_put, not_or]
      by_cases hp : p.2.ID ∈ Bindings.keys b <;> by_cases hq : p.2.ID = e.ID <;> simp [hp, hq]

theorem GoMap.mem_keys_iff_get (S : GoMap) (k : GoString) :
    k ∈ S.keys ↔ (S.get? k).isSome = true := by
  cases S with
  | nil => simp [GoMap.keys, GoMap.get?]
  | made b => simpa [GoMap.keys, GoMap.get?] using Bindings.mem_keys_iff k b

theorem GoMap.keys_nodup_map (S : GoMap) : S.keys.Nodup := by
  cases S with
  | nil => simp [GoMap.keys]
  | made b => exact Bindings.keys_nodup b

theorem countP_eq_one_of_nodup (l : List GoString) (a : GoString) (hl : l.Nodup)
    (ha : a ∈ l) : l.countP (fun k => decide (k = a)) = 1 := by
  induction l with
  | nil => cases ha
  | cons x xs ih =>
    rw [List.nodup_cons] at hl
    by_cases hx : x = a
    · subst hx
      have h0 : xs.countP (fun k => decide (k = x)) = 0 := by
        rw [List.countP_eq_zero]
        intro k hk
        simp only [decide_eq_true_eq]
        intro h; subst h; exact hl.1 hk
      simp [List.countP_cons, h0]
    · have ha' : a ∈ xs := by
        rcases List.mem_cons.1 ha with h | h
        · exact absurd h.symm hx
        · exact h
      simp [List.countP_cons, hx, ih hl.2 ha']

theorem storeInvariant_storeA : StoreInvariant storeA := by
  intro k v h
  simp only [storeA, GoMap.get?, Bindings.find] at h
  split at h
  · cases h; assumption
  · cases h

/-! ## Lemmas on runs -/

theorem bind_apply {α β : Type} (p : Proc α) (f : α → Proc β) (w : World) :
    (p >>= f) w = Proc.bind p f w := rfl

theorem pure_apply {α : Type} (a : α) (w : World) : (pure a : Proc α) w = .ok a w := rfl

theorem adds_pure {α : Type} (P : Event → Prop) (a : α) : Adds P (pure a : Proc α) := by
  intro w; exact ⟨rfl, [], by simp [pure_apply, Result.world], by simp⟩

theorem adds_emit {P : Event → Prop} (e : Event) (he : P e) : Adds P (emit e) := by
  intro w; exact ⟨rfl, [e], rfl, by simpa using he⟩

theorem adds_fatal {α : Type} {P : Event → Prop} (e : GoError) (context : GoString)
    (hP : ∀ f a, P (.printf f a)) : Adds P (fatal e context : Proc α) := by
  intro w; exact ⟨rfl, _, rfl, by simpa using hP _ _⟩

theorem adds_handleError {P : Event → Prop} (err : Option GoError) (context : GoString)
    (hP : ∀ f a, P (.printf f a)) : Adds P (handleError err context) := by
  cases err with
  | none => exact adds_pure P ()
  | some e => exact adds_fatal e context hP

theorem adds_safeClose {P : Event → Prop} (closeErr : Option GoError)
    (hP : ∀ f a, P (.printf f a)) : Adds P (safeClose closeErr) := by
  cases closeErr with
  | none => exact adds_pure P ()
  | some e => exact adds_emit _ (hP _ _)

theorem adds_bind {α β : Type} {P : Event → Prop} {p : Proc α} {f : α → Proc β}
    (hp : Adds P p) (hf : ∀ a, Adds P (f a)) : Adds P (p >>= f) := by
  intro w
  obtain ⟨hfile, t, ht, hPt⟩ := hp w
  rw [bind_apply]
  unfold Proc.bind
  cases hpw : p w with
  | ok a w' =>
    rw [hpw] at hfile ht
    simp only [Result.world] at hfile ht
    obtain ⟨hfile', t', ht', hPt'⟩ := hf a w'
    refine ⟨hfile'.trans hfile, t ++ t', by rw [ht', ht, List.append_assoc], ?_⟩
    intro ev hev
    rcases List.mem_append.1 hev with h | h
    · exact hPt ev h
    · exact hPt' ev h
  | exit code w' =>
    rw [hpw] at hfile ht
    exact ⟨hfile, t, ht, hPt⟩
  | panic w' =>
    rw [hpw] at hfile ht
    exact ⟨hfile, t, ht, hPt⟩

theorem withDefer_world {α : Type} (d : Proc Unit) (p : Proc α) (w : World) :
    (withDefer d p w).world =
      match p w with
      | .ok _ w' => (d w').world
      | .exit _ w' => w'
      | .panic w' => (d w').world := by
  unfold withDefer
  cases p w with
  | ok a w' => simp only; cases d w' <;> rfl
  | exit code w' => rfl
  | panic w' => simp only; cases d w' <;> rfl

theorem adds_withDefer {α : Type} {P : Event → Prop} {d : Proc Unit} {p : Proc α}
    (hd : Adds P d) (hp : Adds P p) : Adds P (withDefer d p) := by
  intro w
  obtain ⟨hfile, t, ht, hPt⟩ := hp w
  rw [withDefer_world]
  cases hpw : p w with
  | ok a w' =>
    rw [hpw] at hfile ht
    simp only [Result.world] at hfile ht
    obtain ⟨hfile', t', ht', hPt'⟩ := hd w'
    refine ⟨hfile'.trans hfile, t ++ t', by simp only; rw [ht', ht, List.append_assoc], ?_⟩
    intro ev hev
    rcases List.mem_append.1 hev with h | h
    · exact hPt ev h
    · exact hPt' ev h
  | exit code w' =>
    rw [hpw] at hfile ht
    exact ⟨hfile, t, ht, hPt⟩
  | panic w' =>
    rw [hpw] at hfile ht
    simp only [Result.world] at hfile ht
    obtain ⟨hfile', t', ht', hPt'⟩ := hd w'
    refine ⟨hfile'.trans hfile, t ++ t', by simp only; rw [ht', ht, List.append_assoc], ?_⟩
    intro ev hev
    rcases List.mem_append.1 hev with h | h
    · exact hPt ev h
    · exact hPt' ev h

theorem quiet_printf (f : GoString) (a : List PrintArg) : (Event.printf f a).Quiet :=
  ⟨rfl, rfl⟩

theorem adds_loadIncidents (env : Env) : Adds Event.Quiet (loadIncidents env) := by
  intro w
  unfold loadIncidents
  cases hf : w.file with
  | none => exact ⟨by simp [Result.world, hf], [], by simp [Result.world], by simp⟩
  | some content =>
    simp only
    have h : Adds Event.Quiet
        (handleError env.openError (ascii "opening data file") >>= fun _ =>
          withDefer (safeClose env.closeRead)
            (match jsonDecode content with
            | .error e => fatal e (ascii "parsing JSON data")
            | .ok incidents => pure incidents)) := by
      apply adds_bind (adds_handleError _ _ quiet_printf)
      intro _
      apply adds_withDefer (adds_safeClose _ quiet_printf)
      cases jsonDecode content with
      | error e => exact adds_fatal e _ quiet_printf
      | ok m => exact adds_pure _ m
    have := h w
    rw [hf] at this
    exact this

theorem adds_runCommand (env : Env) (command : GoString) (args : List GoString) :
    Adds (fun _ => True) (runCommand env command args) :=
  adds_bind (adds_emit _ trivial) (fun _ => adds_handleError _ _ (fun _ _ => trivial))

theorem adds_commitToGit (env : Env) (newIncidents : List Incident) :
    Adds (fun _ => True) (commitToGit env newIncidents) :=
  adds_bind (adds_runCommand _ _ _) fun _ =>
    adds_bind (adds_runCommand _ _ _) fun _ =>
      adds_bind (adds_runCommand _ _ _) fun _ =>
        adds_bind (adds_runCommand _ _ _) fun _ => adds_runCommand _ _ _

theorem mainBody_eq (env : Env) (w w1 : World) (body : GoString) (feed : Feed)
    (S S1 : GoMap) (N : List Incident)
    (hread : env.readAll = .ok body) (hxml : env.xmlUnmarshal body = .ok feed)
    (hload : loadIncidents env w = .ok S w1)
    (hrec : reconcile feed.Entries S = some (S1, N)) :
    mainBody env w = publish env S1 N w1 := by
  unfold mainBody
  simp only [hread, hxml, bind_apply, Proc.bind, hload, hrec]

theorem main_eq (env : Env) (file : Option FileContent) (w1 : World) (body : GoString)
    (feed : Feed) (S S1 : GoMap) (N : List Incident)
    (hget : env.httpGet feedURL = none) (hread : env.readAll = .ok body)
    (hxml : env.xmlUnmarshal body = .ok feed)
    (hload : loadIncidents env ⟨file, [.httpGet feedURL]⟩ = .ok S w1)
    (hrec : reconcile feed.Entries S = some (S1, N)) :
    main env ⟨file, []⟩ = withDefer (safeClose env.closeBody) (publish env S1 N) w1 := by
  unfold main
  simp only [bind_apply, Proc.bind, emit, hget, handleError, pure_apply, List.nil_append]
  unfold withDefer
  rw [mainBody_eq env _ w1 body feed S S1 N hread hxml hload hrec]

theorem saveIncidents_create_failed (env : Env) (S : GoMap) (w : World) (e : GoError)
    (hc : env.createError = some e) :
    saveIncidents env S w = .exit 1 ⟨w.file, w.trace ++ [.create dataFile] ++
      [.printf (ascii "Error %s: %v\n") [.str (ascii "creating data file"), .err e]]⟩ := by
  simp [saveIncidents, bind_apply, Proc.bind, emit, handleError, hc, fatal]

theorem saveIncidents_write_failed (env : Env) (S : GoMap) (w : World) (e : GoError)
    (hc : env.createError = none) (hw : env.writeError = some e) :
    saveIncidents env S w = .exit 1 ⟨some truncated, w.trace ++ [.create dataFile] ++
      [.printf (ascii "Error %s: %v\n") [.str (ascii "saving JSON data"), .err e]]⟩ := by
  simp [saveIncidents, bind_apply, Proc.bind, emit, handleError, hc, hw, fatal, pure_apply,
    withDefer]

theorem saveIncidents_ok (env : Env) (S : GoMap) (w : World)
    (hc : env.createError = none) (hw : env.writeError = none) :
    saveIncidents env S w = .ok () ⟨some (.json (marshalStore S)),
      w.trace ++ [.create dataFile] ++ [.write dataFile (ascii "  ") (marshalStore S)] ++
        closeEvents env.closeWritten⟩ := by
  cases hcl : env.closeWritten <;>
    simp [saveIncidents, bind_apply, Proc.bind, emit, handleError, hc, hw, pure_apply,
      withDefer, safeClose, hcl, closeEvents]

theorem commitToGit_starts (env : Env) (N : List Incident) (w : World) :
    (commitToGit env N w).world.file = w.file ∧
      ∃ t, (commitToGit env N w).world.trace = w.trace ++ [.exec gitConfigEmail] ++ t := by
  have hrest : Adds (fun _ => True)
      (runCommand env (ascii "git") [ascii "config", ascii "--global", ascii "user.name",
          ascii "GitHub Actions"] >>= fun _ =>
        runCommand env (ascii "git") [ascii "add", dataFile] >>= fun _ =>
        runCommand env (ascii "git") [ascii "commit", ascii "-m", commitMessage env N] >>= fun _ =>
        runCommand env (ascii "git") [ascii "push"]) :=
    adds_bind (adds_runCommand _ _ _) fun _ =>
      adds_bind (adds_runCommand _ _ _) fun _ =>
        adds_bind (adds_runCommand _ _ _) fun _ => adds_runCommand _ _ _
  unfold commitToGit
  rw [bind_apply]
  unfold Proc.bind
  cases hr : env.runError gitConfigEmail with
  | some e =>
    have : runCommand env (ascii "git") [ascii "config", ascii "--global", ascii "user.email",
        ascii "github-actions[bot]@users.noreply.github.com"] w =
        .exit 1 ⟨w.file, w.trace ++ [.exec gitConfigEmail] ++ [.printf (ascii "Error %s: %v\n")
          [.str (ascii "running command '" ++ ascii "git" ++ ascii " [" ++
            joinSpace [ascii "config", ascii "--global", ascii "user.email",
              ascii "github-actions[bot]@users.noreply.github.com"] ++ ascii "]'"), .err e]]⟩ := by
      unfold gitConfigEmail at hr
      simp [runCommand, bind_apply, Proc.bind, emit, handleError, hr, fatal, gitConfigEmail]
    rw [this]
    exact ⟨rfl, _, rfl⟩
  | none =>
    have : runCommand env (ascii "git") [ascii "config", ascii "--global", ascii "user.email",
        ascii "github-actions[bot]@users.noreply.github.com"] w =
        .ok () ⟨w.file, w.trace ++ [.exec gitConfigEmail]⟩ := by
      unfold gitConfigEmail at hr
      simp [runCommand, bind_apply, Proc.bind, emit, handleError, hr, pure_apply, gitConfigEmail]
    rw [this]
    obtain ⟨hfile, t, ht, _⟩ := hrest ⟨w.file, w.trace ++ [.exec gitConfigEmail]⟩
    exact ⟨hfile, t, ht⟩

theorem withDefer_extends {α : Type} {P : Event → Prop} {d : Proc Unit} (hd : Adds P d)
    (p : Proc α) (w : World) :
    (withDefer d p w).world.file = (p w).world.file ∧
      ∃ t, (withDefer d p w).world.trace = (p w).world.trace ++ t ∧ ∀ ev ∈ t, P ev := by
  rw [withDefer_world]
  cases p w with
  | ok a w' => exact hd w'
  | exit code w' => exact ⟨rfl, [], by simp [Result.world], by simp⟩
  | panic w' => exact hd w'

theorem withDefer_exitCode_of_ok {α : Type} (closeErr : Option GoError) (p : Proc α)
    (w w' : World) (a : α) (h : p w = .ok a w') :
    (withDefer (safeClose closeErr) p w).exitCode = 0 := by
  unfold withDefer
  rw [h]
  cases closeErr <;> rfl

theorem publish_of_ne_nil (env : Env) (S1 : GoMap) (N : List Incident) (h : N ≠ []) :
    publish env S1 N = (saveIncidents env S1 >>= fun _ => commitToGit env N) := by
  unfold publish
  rw [if_pos (List.length_pos.2 h)]

theorem publish_of_nil (env : Env) (S1 : GoMap) :
    publish env S1 [] = emit (.println (ascii "No new incidents to commit.")) := by
  unfold publish
  simp

theorem runCommand_ok (env : Env) (command : GoString) (args : List GoString) (w : World)
    (h : env.runError (command :: args) = none) :
    runCommand env command args w =
      .ok () { w with trace := w.trace ++ [.exec (command :: args)] } := by
  simp [runCommand, bind_apply, Proc.bind, emit, handleError, h, pure_apply]

theorem loadIncidents_ok (env : Env) (w : World) (doc : JSON) (S : GoMap)
    (hfile : w.file = some (.json doc)) (hopen : env.openError = none)
    (hdoc : unmarshalStore doc = .ok S) :
    loadIncidents env w = .ok S ⟨w.file, w.trace ++ closeEvents env.closeRead⟩ := by
  obtain ⟨file, trace⟩ := w
  simp only at hfile
  subst hfile
  cases hcl : env.closeRead <;>
    simp [loadIncidents, bind_apply, Proc.bind, handleError, hopen, pure_apply,
      withDefer, jsonDecode, hdoc, safeClose, hcl, emit, closeEvents]

theorem validUTF8_storeAB : storeAB.ValidUTF8 := by
  intro k v h
  simp only [storeAB, GoMap.get?, Bindings.find] at h
  split at h
  · cases h; subst k; exact ⟨by decide, fun f => by cases f <;> decide⟩
  · split at h
    · cases h; subst k; exact ⟨by decide, fun f => by cases f <;> decide⟩
    · cases h

/-! ## Lemmas on UTF-8 -/

theorem byte_val (n : Nat) : (byte n).val = n % 256 := rfl

theorem decodeSize_one (b0 : Byte) (rest : GoString) (h : b0.val < 0x80) :
    decodeSize (b0 :: rest) = some 1 := by
  simp only [decodeSize, if_pos h]

theorem decodeSize_two (b0 b1 : Byte) (rest : GoString)
    (h0 : 0xC2 ≤ b0.val ∧ b0.val ≤ 0xDF) (h1 : 0x80 ≤ b1.val ∧ b1.val ≤ 0xBF) :
    decodeSize (b0 :: b1 :: rest) = some 2 := by
  have hl : leadInfo b0 = some (2, 0x80, 0xBF) := by
    simp only [leadInfo, if_pos h0]
  have hn : ¬ b0.val < 0x80 := by omega
  have hr : ¬ (b1.val < 0x80 ∨ 0xBF < b1.val) := by omega
  simp only [decodeSize, if_neg hn, hl, if_neg hr, le_refl, if_true]

theorem decodeSize_three (b0 b1 b2 : Byte) (rest : GoString) (lo hi : Nat)
    (hl : leadInfo b0 = some (3, lo, hi)) (h0 : 0x80 ≤ b0.val)
    (h1 : lo ≤ b1.val ∧ b1.val ≤ hi) (h2 : 0x80 ≤ b2.val ∧ b2.val ≤ 0xBF) :
    decodeSize (b0 :: b1 :: b2 :: rest) = some 3 := by
  have hn : ¬ b0.val < 0x80 := by omega
  have hr : ¬ (b1.val < lo ∨ hi < b1.val) := by omega
  have hc : isCont b2 = true := by simp only [isCont, decide_eq_true_eq]; exact h2
  simp [decodeSize, if_neg hn, hl, if_neg hr, hc]

theorem decodeSize_four (b0 b1 b2 b3 : Byte) (rest : GoString) (lo hi : Nat)
    (hl : leadInfo b0 = some (4, lo, hi)) (h0 : 0x80 ≤ b0.val)
    (h1 : lo ≤ b1.val ∧ b1.val ≤ hi) (h2 : 0x80 ≤ b2.val ∧ b2.val ≤ 0xBF)
    (h3 : 0x80 ≤ b3.val ∧ b3.val ≤ 0xBF) :
    decodeSize (b0 :: b1 :: b2 :: b3 :: rest) = some 4 := by
  have hn : ¬ b0.val < 0x80 := by omega
  have hr : ¬ (b1.val < lo ∨ hi < b1.val) := by omega
  have hc2 : isCont b2 = true := by simp only [isCont, decide_eq_true_eq]; exact h2
  have hc3 : isCont b3 = true := by simp only [isCont, decide_eq_true_eq]; exact h3
  simp [decodeSize, if_neg hn, hl, if_neg hr, hc2, hc3]

theorem leadInfo_three (b0 : Byte) (h : 0xE0 ≤ b0.val ∧ b0.val ≤ 0xEF) :
    leadInfo b0 = some (3, if b0.val = 0xE0 then 0xA0 else 0x80,
      if b0.val = 0xED then 0x9F else 0xBF) := by
  unfold leadInfo
  split_ifs <;> first | rfl | omega

theorem leadInfo_four (b0 : Byte) (h : 0xF0 ≤ b0.val ∧ b0.val ≤ 0xF4) :
    leadInfo b0 = some (4, if b0.val = 0xF0 then 0x90 else 0x80,
      if b0.val = 0xF4 then 0x8F else 0xBF) := by
  unfold leadInfo
  split_ifs <;> first | rfl | omega

theorem decodeSize_encodeRune (r : Nat) (rest : GoString) (h : isScalar r = true) :
    decodeSize (encodeRune r ++ rest) = some (encodeRune r).length := by
  simp only [isScalar, decide_eq_true_eq] at h
  unfold encodeRune
  by_cases h1 : r < 0x80
  · simp only [if_pos h1, List.singleton_append, List.length_singleton]
    exact decodeSize_one _ _ (by rw [byte_val]; omega)
  · by_cases h2 : r < 0x800
    · simp only [if_neg h1, if_pos h2, List.cons_append, List.nil_append, List.length_cons,
        List.length_nil]
      exact decodeSize_two _ _ _ (by rw [byte_val]; omega) (by rw [byte_val]; omega)
    · by_cases h3 : r < 0x10000
      · simp only [if_neg h1, if_neg h2, if_pos h3, List.cons_append, List.nil_append,
          List.length_cons, List.length_nil]
        have e0 : (byte (0xE0 + r / 0x1000)).val = 0xE0 + r / 0x1000 := by
          rw [byte_val]; omega
        refine decodeSize_three _ _ _ _ _ _ (leadInfo_three _ (by rw [e0]; omega))
          (by rw [e0]; omega) ?_ (by rw [byte_val]; omega)
        rw [e0, byte_val]
        split_ifs <;> omega
      · simp only [if_neg h1, if_neg h2, if_neg h3, List.cons_append, List.nil_append,
          List.length_cons, List.length_nil]
        have e0 : (byte (0xF0 + r / 0x40000)).val = 0xF0 + r / 0x40000 := by
          rw [byte_val]; omega
        refine decodeSize_four _ _ _ _ _ _ _ (leadInfo_four _ (by rw [e0]; omega))
          (by rw [e0]; omega) ?_ (by rw [byte_val]; omega) (by rw [byte_val]; omega)
        rw [e0, byte_val]
        split_ifs <;> omega

theorem validAux_drop (n : Nat) (pre rest : GoString) (h : pre.length = n) :
    validAux n (pre ++ rest) = validAux 0 rest := by
  induction pre generalizing n with
  | nil => simp only [List.length_nil] at h; subst h; rfl
  | cons b pre ih =>
    simp only [List.length_cons] at h
    subst h
    simp only [List.cons_append, validAux]
    exact ih _ rfl

theorem validAux_zero_cons (b : Byte) (rest : GoString) (sz : Nat)
    (h : decodeSize (b :: rest) = some sz) :
    validAux 0 (b :: rest) = validAux (sz - 1) rest := by
  simp only [validAux, h]

theorem validAux_encodeRune (r : Nat) (rest : GoString) (h : isScalar r = true) :
    validAux 0 (encodeRune r ++ rest) = validAux 0 rest := by
  have hd := decodeSize_encodeRune r rest h
  cases he : encodeRune r with
  | nil =>
    exfalso
    unfold encodeRune at he
    split_ifs at he
  | cons b pre =>
    rw [he] at hd
    rw [List.cons_append] at hd ⊢
    rw [validAux_zero_cons b (pre ++ rest) _ hd]
    exact validAux_drop _ pre rest (by simp)

/-- The UTF-8 encoding of any sequence of Unicode scalar values is valid in
the sense of `utf8Valid`. -/
theorem utf8Valid_encodeRunes (rs : List Nat) (h : ∀ r ∈ rs, isScalar r = true) :
    utf8Valid (encodeRunes rs) = true := by
  unfold utf8Valid
  induction rs with
  | nil => rfl
  | cons r rest ih =>
    simp only [encodeRunes]
    rw [validAux_encodeRune r _ (h r (List.mem_cons_self _ _))]
    exact ih (fun r' hr' => h r' (List.mem_cons_of_mem _ hr'))

/-! ## Lemmas on the JSON form of the store -/

theorem coerceAux_of_valid (n : Nat) (s : GoString) (h : validAux n s = true) :
    coerceAux n s = s := by
  induction s generalizing n with
  | nil => cases n <;> rfl
  | cons b rest ih =>
    cases n with
    | succ m =>
      simp only [validAux] at h
      simp only [coerceAux, ih m h]
    | zero =>
      simp only [validAux] at h
      simp only [coerceAux]
      cases hd : decodeSize (b :: rest) with
      | none => rw [hd] at h; cases h
      | some sz =>
        rw [hd] at h
        simp only at h ⊢
        rw [ih _ h]

theorem coerceUTF8_of_valid (s : GoString) (h : utf8Valid s = true) : coerceUTF8 s = s :=
  coerceAux_of_valid 0 s h

theorem decodeIncident_encodeIncident (v : Incident)
    (h : ∀ f : Field, utf8Valid (f.value v) = true) :
    decodeIncident (encodeIncident v) = .ok v := by
  have h1 : fieldOf (coerceUTF8 (Field.name .id)) = some .id := by decide
  have h2 : fieldOf (coerceUTF8 (Field.name .updated)) = some .updated := by decide
  have h3 : fieldOf (coerceUTF8 (Field.name .title)) = some .title := by decide
  have h4 : fieldOf (coerceUTF8 (Field.name .summary)) = some .summary := by decide
  have h5 : fieldOf (coerceUTF8 (Field.name .link)) = some .link := by decide
  have e1 := coerceUTF8_of_valid _ (h .id)
  have e2 := coerceUTF8_of_valid _ (h .updated)
  have e3 := coerceUTF8_of_valid _ (h .title)
  have e4 := coerceUTF8_of_valid _ (h .summary)
  have e5 := coerceUTF8_of_valid _ (h .link)
  simp only [Field.value] at e1 e2 e3 e4 e5
  simp only [encodeIncident, decodeIncident, Field.all, List.map_cons, List.map_nil, decodeFields,
    h1, h2, h3, h4, h5, Field.value, Field.assign, zeroIncident, e1, e2, e3, e4, e5]

theorem decodeMembers_encode (L : Bindings) (acc : Bindings)
    (h : ∀ p ∈ L, utf8Valid p.1 = true ∧ ∀ f : Field, utf8Valid (f.value p.2) = true) :
    decodeMembers (L.map (fun p => (coerceUTF8 p.1, encodeIncident p.2))) acc =
      .ok (L.foldl (fun b p => Bindings.put p.1 p.2 b) acc) := by
  induction L generalizing acc with
  | nil => rfl
  | cons p rest ih =>
    have hp := h p (List.mem_cons_self _ _)
    simp only [List.map_cons, decodeMembers, decodeIncident_encodeIncident p.2 hp.2,
      coerceUTF8_of_valid p.1 hp.1,
      List.foldl_cons]
    exact ih _ (fun q hq => h q (List.mem_cons_of_mem _ hq))

namespace Bindings

theorem find_eq_none_of_not_mem (k : GoString) (l : Bindings) (h : k ∉ l.map Prod.fst) :
    find k l = none := by
  induction l with
  | nil => rfl
  | cons p rest ih =>
    obtain ⟨k0, v0⟩ := p
    simp only [List.map_cons, List.mem_cons, not_or] at h
    simp only [find, if_neg (Ne.symm h.1)]
    exact ih h.2

theorem find_eq_some_iff_mem (k : GoString) (v : Incident) (l : Bindings)
    (hl : (l.map Prod.fst).Nodup) : find k l = some v ↔ (k, v) ∈ l := by
  induction l with
  | nil => simp [find]
  | cons p rest ih =>
    obtain ⟨k0, v0⟩ := p
    simp only [List.map_cons, List.nodup_cons] at hl
    by_cases hk : k0 = k
    · subst hk
      simp only [find, if_true, Option.some.injEq, List.mem_cons, Prod.mk.injEq, true_and]
      constructor
      · intro h; exact Or.inl h.symm
      · rintro (h | h)
        · exact h.symm
        · exact absurd (List.mem_map_of_mem Prod.fst h) hl.1
    · simp only [find, if_neg hk, List.mem_cons, Prod.mk.injEq]
      rw [ih hl.2]
      constructor
      · exact Or.inr
      · rintro (⟨h, _⟩ | h)
        · exact absurd h.symm hk
        · exact h

theorem find_perm (k : GoString) {l1 l2 : Bindings} (hp : l1.Perm l2)
    (hl : (l1.map Prod.fst).Nodup) : find k l1 = find k l2 := by
  have hl2 : (l2.map Prod.fst).Nodup := (hp.map Prod.fst).nodup_iff.1 hl
  apply Option.ext
  intro v
  simp only [Option.mem_def]
  rw [find_eq_some_iff_mem k v l1 hl, find_eq_some_iff_mem k v l2 hl2]
  exact hp.mem_iff

theorem find_filter_ne (k k0 : GoString) (l : Bindings) (h : k ≠ k0) :
    find k (l.filter (fun p => decide (p.1 ≠ k0))) = find k l := by
  induction l with
  | nil => rfl
  | cons p rest ih =>
    obtain ⟨k1, v1⟩ := p
    by_cases h1 : k1 = k0
    · subst h1
      simp only [List.filter_cons, ne_eq, not_true_eq_false, decide_False, if_false,
        Bool.false_eq_true, find, if_neg (Ne.symm h)]
      exact ih
    · simp only [List.filter_cons, ne_eq, h1, not_false_eq_true, decide_True, if_true, find, ih]

theorem find_entries (k : GoString) (b : Bindings) : find k (entries b) = find k b := by
  induction b with
  | nil => rfl
  | cons p rest ih =>
    obtain ⟨k0, v0⟩ := p
    by_cases hk : k0 = k
    · simp [entries, find, hk]
    · simp only [entries, find, if_neg hk]
      rw [find_filter_ne k k0 _ (Ne.symm hk), ih]

theorem find_foldl_put (k : GoString) (L acc : Bindings) (hL : (L.map Prod.fst).Nodup) :
    find k (L.foldl (fun b p => put p.1 p.2 b) acc) =
      match find k L with
      | some v => some v
      | none => find k acc := by
  induction L generalizing acc with
  | nil => rfl
  | cons p rest ih =>
    obtain ⟨k0, v0⟩ := p
    simp only [List.map_cons, List.nodup_cons] at hL
    simp only [List.foldl_cons]
    rw [ih _ hL.2]
    by_cases hk : k0 = k
    · subst hk
      rw [find_eq_none_of_not_mem _ _ hL.1]
      simp [find, find_put_self]
    · simp only [find, if_neg hk, find_put_of_ne _ _ (Ne.symm hk)]

end Bindings

theorem unmarshal_marshal (S : GoMap) (hvalid : S.ValidUTF8) :
    ∃ S', unmarshalStore (marshalStore S) = .ok S' ∧ S'.DeepEqual S := by
  cases S with
  | nil => exact ⟨.nil, rfl, rfl, fun _ => rfl⟩
  | made b =>
    have hperm : ((b.entries).insertionSort (fun p q => p.1 ≤ q.1)).Perm b.entries :=
      List.perm_insertionSort _ _
    have hnodup : (((b.entries).insertionSort (fun p q => p.1 ≤ q.1)).map Prod.fst).Nodup :=
      (hperm.map Prod.fst).nodup_iff.2 (Bindings.keys_nodup b)
    have hfind : ∀ k, Bindings.find k ((b.entries).insertionSort (fun p q => p.1 ≤ q.1)) =
        Bindings.find k b := by
      intro k
      rw [Bindings.find_perm k hperm hnodup, Bindings.find_entries]
    have hv : ∀ p ∈ (b.entries).insertionSort (fun p q => p.1 ≤ q.1),
        utf8Valid p.1 = true ∧ ∀ f : Field, utf8Valid (f.value p.2) = true := by
      intro p hp
      apply hvalid p.1 p.2
      simp only [GoMap.get?]
      rw [← hfind, Bindings.find_eq_some_iff_mem _ _ _ hnodup]
      exact hp
    refine ⟨.made (((b.entries).insertionSort (fun p q => p.1 ≤ q.1)).foldl
      (fun b p => Bindings.put p.1 p.2 b) []), ?_, rfl, ?_⟩
    · simp only [marshalStore, unmarshalStore, decodeMembers_encode _ [] hv]
    · intro k
      simp only [GoMap.get?]
      rw [Bindings.find_foldl_put k _ [] hnodup, hfind]
      cases Bindings.find k b <;> rfl

/-! ## The Reconciler (claims C1 to C6) -/

/-- C1 (idempotence of the Reconciler): if reconciling the entries `E` into
the store `S` yields the store `S1` and the newly-discovered list `N1`, then
reconciling the same `E` into `S1` yields an empty newly-discovered list and
the store `S1` again. -/
theorem reconcile_idempotent (E : List Entry) (S S1 : GoMap) (N1 : List Incident)
    (h : reconcile E S = some (S1, N1)) : reconcile E S1 = some (S1, []) := by
  rcases reconcile_cases h with ⟨_, hE, hS1, _⟩ | ⟨b, _, hS1, _⟩
  · subst hE hS1; rfl
  · subst hS1
    rw [reconcile_made, mergeNew_idem]

/-- Scenario B run twice: the second run on the resulting store finds nothing
new and leaves the store as it is. -/
theorem reconcile_idempotent_witness :
    reconcile [entryA, entryB] storeA = some (storeAB, [toIncident entryB]) ∧
      reconcile [entryA, entryB] storeAB = some (storeAB, []) :=
  ⟨by decide, reconcile_idempotent [entryA, entryB] storeA storeAB [toIncident entryB] (by decide)⟩

/-- C2 as stated fails: with an empty store and a feed that carries the id `a`
twice, both entries have an id that is not a key of the starting store, yet
only the first one is newly discovered. -/
theorem reconcile_duplicate_id_counterexample :
    reconcile [entryA, entryA2] (.made []) =
        some (.made [(ascii "a", toIncident entryA)], [toIncident entryA]) ∧
      (unseenEntries (.made []) [entryA, entryA2]).map toIncident =
        [toIncident entryA, toIncident entryA2] ∧
      [toIncident entryA] ≠ [toIncident entryA, toIncident entryA2] := by
  decide

/-- C2 (amended): on an initialised store the Reconciler returns, and whenever
it returns, the newly-discovered list is the list obtained by keeping, in feed
order, every entry whose id is not a key of the starting store and is not the
id of an earlier entry of the feed, each converted to an `Incident` with
identical field values. -/
theorem reconcile_new_eq_first_unseen (E : List Entry) (S : GoMap) :
    (S.isNil = false → ∃ S1 N, reconcile E S = some (S1, N)) ∧
      ∀ S1 N, reconcile E S = some (S1, N) →
        N = (firstUnseenEntries S E).map toIncident := by
  constructor
  · intro hS
    obtain ⟨⟨S1, N⟩, hr⟩ := reconcile_isSome_of_made E S hS
    exact ⟨S1, N, hr⟩
  · intro S1 N h
    rcases reconcile_cases h with ⟨_, hE, _, hN⟩ | ⟨b, hS, _, hN⟩
    · subst hE hN; rfl
    · subst hS hN; exact mergeNew_eq_firstUnseen E b

/-- Feed `a, b, a` (the second `a` changed) against the store `{a}`: only `b`
is new. -/
theorem reconcile_new_eq_first_unseen_witness :
    (∃ S1 N, reconcile [entryA, entryB, entryA2] storeA = some (S1, N)) ∧
      [toIncident entryB] = (firstUnseenEntries storeA [entryA, entryB, entryA2]).map toIncident :=
  ⟨(reconcile_new_eq_first_unseen [entryA, entryB, entryA2] storeA).1 rfl,
    (reconcile_new_eq_first_unseen [entryA, entryB, entryA2] storeA).2 storeAB
      [toIncident entryB] (by decide)⟩

/-- C3 (no loss, no duplication): on an initialised store the Reconciler
returns, and whenever it returns, the id of every entry is a key of the
resulting store, exactly once, and it is accounted for exactly once: either it
was a key of the starting store and no newly-discovered incident carries it, or
it was not and exactly one newly-discovered incident carries it. -/
theorem reconcile_no_loss_no_duplication (E : List Entry) (S : GoMap) :
    (S.isNil = false → ∃ S1 N, reconcile E S = some (S1, N)) ∧
      ∀ S1 N, reconcile E S = some (S1, N) → ∀ e ∈ E,
        e.ID ∈ S1.keys ∧ S1.keys.countP (fun k => decide (k = e.ID)) = 1 ∧
          ((e.ID ∈ S.keys ∧ N.countP (fun i => decide (i.ID = e.ID)) = 0) ∨
            (e.ID ∉ S.keys ∧ N.countP (fun i => decide (i.ID = e.ID)) = 1)) := by
  constructor
  · intro hS
    obtain ⟨⟨S1, N⟩, hr⟩ := reconcile_isSome_of_made E S hS
    exact ⟨S1, N, hr⟩
  · intro S1 N h e he
    rcases reconcile_cases h with ⟨_, hE, _, _⟩ | ⟨b, hS, hS1, hN⟩
    · subst hE; cases he
    · subst hS hS1 hN
      have hkey : e.ID ∈ (GoMap.made (mergeNew E b).1).keys := by
        obtain ⟨v, hv⟩ := mergeNew_find_entry E b e he
        simp [GoMap.mem_keys_iff_get, GoMap.get?, hv]
      refine ⟨hkey, countP_eq_one_of_nodup _ _ (GoMap.keys_nodup_map _) hkey, ?_⟩
      have hcount := mergeNew_count E b e.ID
      have hmem : e.ID ∈ E.map Entry.ID := List.mem_map_of_mem _ he
      by_cases hk : (b.find e.ID).isSome = true
      · left
        refine ⟨by simpa [GoMap.mem_keys_iff_get, GoMap.get?] using hk, ?_⟩
        rw [hcount]; simp [hk]
      · right
        refine ⟨by simpa [GoMap.mem_keys_iff_get, GoMap.get?] using hk, ?_⟩
        rw [hcount]; simp [hk, hmem]

/-- Feed `a, b, a` against the store `{a}`: `a` was present and is carried by
no new incident, `b` was absent and is carried by one. -/
theorem reconcile_no_loss_no_duplication_witness :
    (∃ S1 N, reconcile [entryA, entryB, entryA2] storeA = some (S1, N)) ∧
      ascii "b" ∈ storeAB.keys ∧ storeAB.keys.countP (fun k => decide (k = ascii "b")) = 1 ∧
        ((ascii "b" ∈ storeA.keys ∧
            [toIncident entryB].countP (fun i => decide (i.ID = ascii "b")) = 0) ∨
          (ascii "b" ∉ storeA.keys ∧
            [toIncident entryB].countP (fun i => decide (i.ID = ascii "b")) = 1)) :=
  ⟨(reconcile_no_loss_no_duplication [entryA, entryB, entryA2] storeA).1 rfl,
    (reconcile_no_loss_no_duplication [entryA, entryB, entryA2] storeA).2 storeAB
      [toIncident entryB] (by decide) entryB (by decide)⟩

/-- C4 (order preservation): on an initialised store the Reconciler returns,
and whenever it returns, the newly-discovered list is a subsequence of the feed
converted entry by entry, whatever the store holds. -/
theorem reconcile_preserves_feed_order (E : List Entry) (S : GoMap) :
    (S.isNil = false → ∃ S1 N, reconcile E S = some (S1, N)) ∧
      ∀ S1 N, reconcile E S = some (S1, N) → List.Sublist N (E.map toIncident) := by
  constructor
  · intro hS
    obtain ⟨⟨S1, N⟩, hr⟩ := reconcile_isSome_of_made E S hS
    exact ⟨S1, N, hr⟩
  · intro S1 N h
    rcases reconcile_cases h with ⟨_, _, _, hN⟩ | ⟨b, _, _, hN⟩
    · subst hN; exact List.nil_sublist _
    · subst hN; exact mergeNew_sublist E b

/-- Scenario A: empty store, feed `a, b`; both are new, in feed order. -/
theorem reconcile_preserves_feed_order_witness :
    (∃ S1 N, reconcile [entryA, entryB] (.made []) = some (S1, N)) ∧
      List.Sublist [toIncident entryA, toIncident entryB]
        ([entryA, entryB].map toIncident) :=
  ⟨(reconcile_preserves_feed_order [entryA, entryB] (.made [])).1 rfl,
    (reconcile_preserves_feed_order [entryA, entryB] (.made [])).2 storeAB
      [toIncident entryA, toIncident entryB] (by decide)⟩

/-- C5 (the existing record wins): on an initialised store the Reconciler
returns, and whenever it returns, every key of the starting store is a key of
the resulting store and still maps to exactly the incident it mapped to,
whatever the feed says about that id. -/
theorem reconcile_existing_record_wins (E : List Entry) (S : GoMap) :
    (S.isNil = false → ∃ S1 N, reconcile E S = some (S1, N)) ∧
      ∀ S1 N, reconcile E S = some (S1, N) →
        (∀ k ∈ S.keys, k ∈ S1.keys) ∧ ∀ k v, S.get? k = some v → S1.get? k = some v := by
  constructor
  · intro hS
    obtain ⟨⟨S1, N⟩, hr⟩ := reconcile_isSome_of_made E S hS
    exact ⟨S1, N, hr⟩
  · intro S1 N h
    have hget : ∀ k v, S.get? k = some v → S1.get? k = some v := by
      intro k v hk
      rcases reconcile_cases h with ⟨hS, _, _, _⟩ | ⟨b, hS, hS1, _⟩
      · subst hS; simp [GoMap.get?] at hk
      · subst hS hS1; exact mergeNew_find_preserved E b k v hk
    refine ⟨?_, hget⟩
    intro k hk
    rw [GoMap.mem_keys_iff_get] at hk ⊢
    cases hv : S.get? k with
    | none => simp [hv] at hk
    | some v => simp [hget k v hv]

/-- Store `{a}`, feed with a changed entry for `a`: the stored incident of `a`
stays the one of `entryA`. -/
theorem reconcile_existing_record_wins_witness :
    (∃ S1 N, reconcile [entryA2, entryB] storeA = some (S1, N)) ∧
      (∀ k ∈ storeA.keys, k ∈ storeAB.keys) ∧
        ∀ k v, storeA.get? k = some v → storeAB.get? k = some v :=
  ⟨(reconcile_existing_record_wins [entryA2, entryB] storeA).1 rfl,
    (reconcile_existing_record_wins [entryA2, entryB] storeA).2 storeAB
      [toIncident entryB] (by decide)⟩

/-- C6 (store invariant): every key equals the `ID` of its value in the empty
store that `loadIncidents` returns when the data file is absent, and the
Reconciler preserves the invariant: it returns on an initialised store, and
when the starting store satisfies the invariant so does the resulting one. -/
theorem store_invariant_preserved :
    (∀ (env : Env) (w : World), w.file = none →
      loadIncidents env w = .ok (.made []) w ∧ StoreInvariant (.made [])) ∧
    (∀ (E : List Entry) (S : GoMap), S.isNil = false → ∃ S1 N, reconcile E S = some (S1, N)) ∧
    ∀ (E : List Entry) (S S1 : GoMap) (N : List Incident),
      StoreInvariant S → reconcile E S = some (S1, N) → StoreInvariant S1 := by
  refine ⟨?_, ?_, ?_⟩
  · intro env w hw
    constructor
    · simp [loadIncidents, hw]
    · intro k v h; simp [GoMap.get?, Bindings.find] at h
  · intro E S hS
    obtain ⟨⟨S1, N⟩, hr⟩ := reconcile_isSome_of_made E S hS
    exact ⟨S1, N, hr⟩
  · intro E S S1 N hinv h
    rcases reconcile_cases h with ⟨hS, _, hS1, _⟩ | ⟨b, hS, hS1, _⟩
    · subst hS hS1; exact hinv
    · subst hS hS1
      exact mergeNew_invariant E b hinv

/-- Scenario B: the store `{a}` satisfies the invariant, and so does the store
`{a, b}` that the Reconciler produces from it. -/
theorem store_invariant_preserved_witness :
    StoreInvariant storeA ∧
      reconcile [entryA, entryB] storeA = some (storeAB, [toIncident entryB]) ∧
      StoreInvariant storeAB :=
  ⟨storeInvariant_storeA, by decide,
    store_invariant_preserved.2.2 [entryA, entryB] storeA storeAB [toIncident entryB]
      storeInvariant_storeA (by decide)⟩

/-! ## Publishing (claims C7 and C8) -/

/-- C7: suppose the run reaches line 71: the feed was fetched and parsed,
`loadIncidents` returned the store `S`, and the Reconciler turned it into `S1`
with the newly-discovered list `N`.  If `N` is non-empty, `main` continues as
`saveIncidents` on `S1` followed by `commitToGit` on `N`; `os.Create` of the
data file is called exactly when `N` is non-empty; an external command is run
only when `N` is non-empty, and the first git command is run exactly when `N`
is non-empty and the save did not end the run with a fatal error; when the save
succeeds the store is written and the first git command follows the write.  If
`N` is empty, the run makes no
file write and runs no command, prints the no-new-incidents message, leaves the
data file as it was and ends with exit code 0. -/
theorem main_saves_and_commits_iff_new (env : Env) (file : Option FileContent)
    (body : GoString) (feed : Feed) (S S1 : GoMap) (N : List Incident)
    (hget : env.httpGet feedURL = none) (hread : env.readAll = .ok body)
    (hxml : env.xmlUnmarshal body = .ok feed)
    (hload : (loadIncidents env ⟨file, [.httpGet feedURL]⟩).value? = some S)
    (hrec : reconcile feed.Entries S = some (S1, N)) :
    (N ≠ [] →
      main env ⟨file, []⟩ =
        withDefer (safeClose env.closeBody)
          (saveIncidents env S1 >>= fun _ => commitToGit env N)
          (loadIncidents env ⟨file, [.httpGet feedURL]⟩).world) ∧
    (N ≠ [] ↔ Event.create dataFile ∈ (main env ⟨file, []⟩).world.trace) ∧
    ((∃ argv, Event.exec argv ∈ (main env ⟨file, []⟩).world.trace) → N ≠ []) ∧
    (Event.exec gitConfigEmail ∈ (main env ⟨file, []⟩).world.trace ↔
      N ≠ [] ∧ env.createError = none ∧ env.writeError = none) ∧
    (N ≠ [] → env.createError = none → env.writeError = none →
      (main env ⟨file, []⟩).world.file = some (.json (marshalStore S1)) ∧
      ∃ pre mid post, (main env ⟨file, []⟩).world.trace =
        pre ++ [.write dataFile (ascii "  ") (marshalStore S1)] ++ mid ++
          [.exec gitConfigEmail] ++ post) ∧
    (N = [] →
      (main env ⟨file, []⟩).exitCode = 0 ∧
      (main env ⟨file, []⟩).world.file = file ∧
      Event.println (ascii "No new incidents to commit.") ∈ (main env ⟨file, []⟩).world.trace ∧
      ∀ ev ∈ (main env ⟨file, []⟩).world.trace, ev.isFileWrite = false ∧ ev.isExec = false) := by
  cases hl : loadIncidents env ⟨file, [.httpGet feedURL]⟩ with
  | exit code w1 => rw [hl] at hload; simp [Result.value?] at hload
  | panic w1 => rw [hl] at hload; simp [Result.value?] at hload
  | ok S' w1 =>
    rw [hl] at hload
    simp only [Result.value?, Option.some.injEq] at hload
    subst hload
    have hmain := main_eq env file w1 body feed S' S1 N hget hread hxml hl hrec
    obtain ⟨hfile1, t1, ht1, hq1⟩ := adds_loadIncidents env ⟨file, [.httpGet feedURL]⟩
    rw [hl] at hfile1 ht1
    simp only [Result.world] at hfile1 ht1
    have hclose : Adds Event.Quiet (safeClose env.closeBody) := adds_safeClose _ quiet_printf
    -- the run with nothing new
    have hempty : N = [] →
        (main env ⟨file, []⟩).exitCode = 0 ∧
        (main env ⟨file, []⟩).world.file = file ∧
        Event.println (ascii "No new incidents to commit.") ∈
          (main env ⟨file, []⟩).world.trace ∧
        ∀ ev ∈ (main env ⟨file, []⟩).world.trace,
          ev.isFileWrite = false ∧ ev.isExec = false := by
      intro hN
      subst hN
      rw [hmain, publish_of_nil]
      obtain ⟨hf, t, ht, hq⟩ := withDefer_extends hclose
        (emit (.println (ascii "No new incidents to commit."))) w1
      refine ⟨withDefer_exitCode_of_ok _ _ w1 _ () rfl, ?_, ?_, ?_⟩
      · rw [hf]; exact hfile1
      · rw [ht]; simp [emit, Result.world]
      · intro ev hev
        rw [ht] at hev
        simp only [emit, Result.world, ht1, List.mem_append, List.mem_singleton,
          List.mem_cons, List.not_mem_nil, or_false] at hev
        rcases hev with ((rfl | h) | rfl) | h
        · exact ⟨rfl, rfl⟩
        · exact hq1 ev h
        · exact ⟨rfl, rfl⟩
        · exact hq ev h
    -- the run with something new
    have hw1 : ∀ ev ∈ w1.trace, ev.isExec = false := by
      intro ev hev
      rw [ht1] at hev
      rcases List.mem_append.1 hev with h | h
      · rw [List.mem_singleton] at h; subst h; rfl
      · exact (hq1 ev h).2
    have hnew : N ≠ [] → Event.create dataFile ∈ (main env ⟨file, []⟩).world.trace ∧
        (env.createError = none → env.writeError = none →
          (main env ⟨file, []⟩).world.file = some (.json (marshalStore S1)) ∧
          ∃ pre mid post, (main env ⟨file, []⟩).world.trace =
            pre ++ [.write dataFile (ascii "  ") (marshalStore S1)] ++ mid ++
              [.exec gitConfigEmail] ++ post) ∧
        (¬ (env.createError = none ∧ env.writeError = none) →
          ∀ ev ∈ (main env ⟨file, []⟩).world.trace, ev.isExec = false) := by
      intro hN
      rw [hmain, publish_of_ne_nil env S1 N hN]
      obtain ⟨hf, t, ht, hqt⟩ := withDefer_extends hclose
        (saveIncidents env S1 >>= fun _ => commitToGit env N) w1
      rw [hf, ht, bind_apply]
      unfold Proc.bind
      cases hc : env.createError with
      | some e =>
        rw [saveIncidents_create_failed env S1 w1 e hc]
        refine ⟨by simp [Result.world], fun h => (by cases h), fun _ ev hev => ?_⟩
        simp only [Result.world, List.mem_append, List.mem_singleton] at hev
        rcases hev with ((h | rfl) | rfl) | h
        · exact hw1 ev h
        · rfl
        · rfl
        · exact (hqt ev h).2
      | none =>
        cases hw : env.writeError with
        | some e =>
          rw [saveIncidents_write_failed env S1 w1 e hc hw]
          refine ⟨by simp [Result.world], fun _ h => (by cases h), fun _ ev hev => ?_⟩
          simp only [Result.world, List.mem_append, List.mem_singleton] at hev
          rcases hev with ((h | rfl) | rfl) | h
          · exact hw1 ev h
          · rfl
          · rfl
          · exact (hqt ev h).2
        | none =>
          rw [saveIncidents_ok env S1 w1 hc hw]
          simp only
          obtain ⟨hcf, tc, htc⟩ := commitToGit_starts env N
            ⟨some (.json (marshalStore S1)),
              w1.trace ++ [.create dataFile] ++ [.write dataFile (ascii "  ") (marshalStore S1)] ++
                closeEvents env.closeWritten⟩
          rw [hcf, htc]
          refine ⟨by simp, fun _ _ => ⟨rfl, w1.trace ++ [.create dataFile],
            closeEvents env.closeWritten, tc ++ t, by simp⟩, fun h => (h (by simp)).elim⟩
    refine ⟨?_, ?_, ?_, ?_, ?_, hempty⟩
    · intro hN
      rw [hmain, publish_of_ne_nil env S1 N hN]
      rfl
    · constructor
      · exact fun hN => (hnew hN).1
      · intro hmem hN
        have := (hempty hN).2.2.2 _ hmem
        simp [Event.isFileWrite] at this
    · rintro ⟨argv, hmem⟩ hN
      have := (hempty hN).2.2.2 _ hmem
      simp [Event.isExec] at this
    · constructor
      · intro hmem
        have hN : N ≠ [] := by
          intro hN
          have := (hempty hN).2.2.2 _ hmem
          simp [Event.isExec] at this
        refine ⟨hN, ?_⟩
        by_contra hfail
        have := (hnew hN).2.2 hfail _ hmem
        simp [Event.isExec] at this
      · rintro ⟨hN, hc, hw⟩
        obtain ⟨-, pre, mid, post, htrace⟩ := (hnew hN).2.1 hc hw
        rw [htrace]
        simp
    · exact fun hN => (hnew hN).2.1

/-- Scenario A (empty store, feed `a, b`): the store `{a, b}` is written and
`os.Create` is called.  Scenario C (store `{a, b}`, feed `a, b`): nothing is
new, the run ends with exit code 0 and the data file is untouched. -/
theorem main_saves_and_commits_iff_new_witness :
    (main (quietEnv ⟨[entryA, entryB]⟩) ⟨none, []⟩).world.file =
        some (.json (marshalStore storeAB)) ∧
      ([toIncident entryA, toIncident entryB] ≠ [] ↔
        Event.create dataFile ∈ (main (quietEnv ⟨[entryA, entryB]⟩) ⟨none, []⟩).world.trace) ∧
      (main (quietEnv ⟨[entryA, entryB]⟩)
        ⟨some (.json (marshalStore storeAB)), []⟩).exitCode = 0 :=
  ⟨((main_saves_and_commits_iff_new (quietEnv ⟨[entryA, entryB]⟩) none [] ⟨[entryA, entryB]⟩
      (.made []) storeAB [toIncident entryA, toIncident entryB] rfl rfl rfl (by decide)
      (by decide)).2.2.2.2.1 (by decide) rfl rfl).1,
    (main_saves_and_commits_iff_new (quietEnv ⟨[entryA, entryB]⟩) none [] ⟨[entryA, entryB]⟩
      (.made []) storeAB [toIncident entryA, toIncident entryB] rfl rfl rfl (by decide)
      (by decide)).2.1,
    ((main_saves_and_commits_iff_new (quietEnv ⟨[entryA, entryB]⟩)
      (some (.json (marshalStore storeAB))) [] ⟨[entryA, entryB]⟩
      storeAB storeAB [] rfl rfl rfl (by decide) (by decide)).2.2.2.2.2 rfl).1⟩

/-- C8: when every command succeeds, `commitToGit` runs exactly these five
commands, in this order: set the git identity email, set the git identity
name, `git add data.json`, `git commit -m M`, `git push`, where `M` is
`Update incidents: N new (T)` with `N` the decimal number of newly-discovered
incidents and `T` the current time formatted with the layout `time.RFC3339`. -/
theorem commitToGit_command_sequence (env : Env) (newIncidents : List Incident) (w : World)
    (hrun : ∀ argv, env.runError argv = none) :
    commitToGit env newIncidents w = .ok ()
      { w with trace := w.trace ++
        [.exec [ascii "git", ascii "config", ascii "--global", ascii "user.email",
            ascii "github-actions[bot]@users.noreply.github.com"],
          .exec [ascii "git", ascii "config", ascii "--global", ascii "user.name",
            ascii "GitHub Actions"],
          .exec [ascii "git", ascii "add", ascii "data.json"],
          .exec [ascii "git", ascii "commit", ascii "-m",
            ascii "Update incidents: " ++ decimal newIncidents.length ++ ascii " new (" ++
              env.timeFormat env.now (ascii "2006-01-02T15:04:05Z07:00") ++ ascii ")"],
          .exec [ascii "git", ascii "push"]] } := by
  simp only [commitToGit, bind_apply, Proc.bind, runCommand_ok _ _ _ _ (hrun _), commitMessage,
    RFC3339, dataFile, List.append_assoc, List.singleton_append, List.cons_append, List.nil_append]

/-- Two new incidents at `2024-05-01T10:00:00Z`: the commit message is
`Update incidents: 2 new (2024-05-01T10:00:00Z)`. -/
theorem commitToGit_command_sequence_witness :
    (∀ argv, (quietEnv ⟨[]⟩).runError argv = none) ∧
    commitToGit (quietEnv ⟨[]⟩) [toIncident entryA, toIncident entryB] ⟨none, []⟩ = .ok ()
      ⟨none,
        [.exec [ascii "git", ascii "config", ascii "--global", ascii "user.email",
            ascii "github-actions[bot]@users.noreply.github.com"],
          .exec [ascii "git", ascii "config", ascii "--global", ascii "user.name",
            ascii "GitHub Actions"],
          .exec [ascii "git", ascii "add", ascii "data.json"],
          .exec [ascii "git", ascii "commit", ascii "-m",
            ascii "Update incidents: 2 new (2024-05-01T10:00:00Z)"],
          .exec [ascii "git", ascii "push"]]⟩ :=
  ⟨fun _ => rfl,
    commitToGit_command_sequence (quietEnv ⟨[]⟩) [toIncident entryA, toIncident entryB]
      ⟨none, []⟩ (fun _ => rfl)⟩

/-! ## The store file (claims C9 and C10) -/

/-- C9 as stated fails: the store whose incident has the title `Caf\xe9`
(Latin-1, not valid UTF-8) comes back from a save and a load with the byte
`0xE9` replaced by U+FFFD, so the loaded store differs from the saved one
under the key `a`. -/
theorem roundtrip_invalid_utf8_counterexample :
    (loadIncidents (quietEnv ⟨[]⟩)
        (saveIncidents (quietEnv ⟨[]⟩) latin1Store ⟨none, []⟩).world).value? =
      some latin1StoreReloaded ∧
    latin1StoreReloaded.get? (ascii "a") ≠ latin1Store.get? (ascii "a") := by
  decide

/-- C9 (amended): for every store, nil, empty or not, whose keys and string
field values are valid UTF-8, when creating, writing and opening the data file
succeed, `saveIncidents` returns, `loadIncidents` on the resulting world
returns, and the loaded store equals the saved one: it is nil exactly when the
saved one is, and it binds every key to the same incident. -/
theorem save_then_load_roundtrip (env : Env) (S : GoMap) (w : World)
    (hcreate : env.createError = none) (hwrite : env.writeError = none)
    (hopen : env.openError = none) (hvalid : S.ValidUTF8) :
    ∃ w2 S' w3, saveIncidents env S w = .ok () w2 ∧ loadIncidents env w2 = .ok S' w3 ∧
      S'.DeepEqual S := by
  obtain ⟨S', hS', heq⟩ := unmarshal_marshal S hvalid
  exact ⟨_, S', _, saveIncidents_ok env S w hcreate hwrite,
    loadIncidents_ok env _ _ S' rfl hopen hS', heq⟩

/-- Scenario data: the store `{a, b}` survives a save and a load. -/
theorem save_then_load_roundtrip_witness :
    storeAB.ValidUTF8 ∧
      ∃ w2 S' w3, saveIncidents (quietEnv ⟨[]⟩) storeAB ⟨none, []⟩ = .ok () w2 ∧
        loadIncidents (quietEnv ⟨[]⟩) w2 = .ok S' w3 ∧ S'.DeepEqual storeAB :=
  ⟨validUTF8_storeAB,
    save_then_load_roundtrip (quietEnv ⟨[]⟩) storeAB ⟨none, []⟩ rfl rfl rfl validUTF8_storeAB⟩

/-- C10 at the failing input: the data file holds the JSON value `null` and
the feed has one entry.  `loadIncidents` returns the nil map without error, the
first insertion of the loop panics, and the process ends with exit status 2.
With the data file absent the same feed is reconciled into a fresh map. -/
theorem main_panics_on_null_data_file :
    (loadIncidents (quietEnv ⟨[entryA]⟩) ⟨some (.json .null), [.httpGet feedURL]⟩).value? =
        some GoMap.nil ∧
      reconcile [entryA] GoMap.nil = none ∧
      (main (quietEnv ⟨[entryA]⟩) ⟨some (.json .null), []⟩).exitCode = 2 ∧
      (loadIncidents (quietEnv ⟨[entryA]⟩) ⟨none, [.httpGet feedURL]⟩).value? =
        some (GoMap.made []) ∧
      (main (quietEnv ⟨[entryA]⟩) ⟨none, []⟩).exitCode = 0 := by
  decide

end WebshareStatus
